import Mathlib

/-!
Verification of the patrix radix-tree library.

The Python source (src/patrix/radix.py) implements a compressed prefix tree:
a RadixNode holds an optional value and a dict from child-prefix strings to
child nodes, and RadixTree wraps the root node with key validation.

Shallow embedding notes:
* Python strings are embedded as List Char (Str below).
* A Python dict is embedded as an association list in insertion order;
  dict assignment of a fresh key appends, assignment to an existing key
  updates in place, and del removes the entry.
* RadixNode.prefix is stored once: in the source it is kept in sync with
  the key under which the node is stored in its parent dict, so the
  embedding stores it only as the association-list key. The parent
  back-reference is used in the source only to reconstruct full keys, so
  the embedding passes accumulated keys explicitly instead.
* RadixNode.insert in the source first scans children with
  _find_common_prefix_child and then branches on the result; the embedding
  fuses the scan with the branching (insertCs walks the child list and acts
  at the first child sharing a non-empty common prefix), which performs the
  identical dict operations.
-/

set_option autoImplicit false
set_option synthInstance.maxHeartbeats 400000

namespace Patrix

/-- Python strings, as sequences of characters. -/
abbrev Str := List Char

/-- RadixNode._common_longest_prefix: longest common prefix of two strings. -/
def commonLongestPrefix : Str → Str → Str
  | a :: as, b :: bs => if a = b then a :: commonLongestPrefix as bs else []
  | _, _ => []

/-- A node of the radix tree: optional value plus the children dict
(association list from child prefix to child node, in insertion order). -/
inductive RadixNode (V : Type) : Type where
  | mk (value : Option V) (children : List (Str × RadixNode V)) : RadixNode V

namespace RadixNode

variable {V : Type}

/-- The value stored at this node (None in the source becomes none). -/
def value : RadixNode V → Option V
  | mk v _ => v

/-- The children dict of this node. -/
def children : RadixNode V → List (Str × RadixNode V)
  | mk _ cs => cs

/-- RadixNode._find_common_prefix_child: the first child whose prefix shares a
non-empty common prefix with key, with that common prefix and the child's
stored prefix; none when no child matches. -/
def findCommonPrefixChild : List (Str × RadixNode V) → Str → Option (Str × Str × RadixNode V)
  | [], _ => none
  | (p, ch) :: rest, key =>
    let c := commonLongestPrefix key p
    if 0 < c.length then some (c, p, ch) else findCommonPrefixChild rest key

mutual

/-- RadixNode.insert: insert a key/value pair into the subtree at this node. -/
def insert (key : Str) (v : V) : RadixNode V → RadixNode V
  | mk val cs => mk val (insertCs key v cs)

/-- The children-dict action of RadixNode.insert: scan for the first child
sharing a non-empty common prefix with key (as _find_common_prefix_child
does) and perform the four-case update of the source on the dict:
1. no child shares a prefix: add a new leaf under the whole key (appended,
   as dict assignment of a fresh key);
2. exact match: overwrite that child's value in place;
3. the common prefix equals the child's prefix: recurse into that child
   with the remaining key, in place;
4. otherwise split: a fresh intermediate node under the common prefix is
   assigned (appended) holding the old child re-keyed by its remaining
   prefix and a new leaf for the remaining key, and the old entry is
   deleted. -/
def insertCs (key : Str) (v : V) : List (Str × RadixNode V) → List (Str × RadixNode V)
  | [] => [(key, mk (some v) [])]
  | (p, ch) :: rest =>
    let c := commonLongestPrefix key p
    if c = [] then
      (p, ch) :: insertCs key v rest
    else if p = key ∧ c = p then
      (p, mk (some v) ch.children) :: rest
    else if c = p then
      (p, insert (key.drop c.length) v ch) :: rest
    else
      rest ++ [(c, mk none [(p.drop c.length, ch), (key.drop c.length, mk (some v) [])])]

end

mutual

/-- The while loop of RadixNode.completions: starting from a node already
entered (with its accumulated full key), repeatedly follow the unique child
sharing a prefix with the remaining query, returning the last node reached
and its full key. -/
def walkNode (curKey query : Str) (n : RadixNode V) : RadixNode V × Str :=
  match n with
  | mk v cs => walkCs curKey query (mk v cs) cs

/-- Child scan of the completion walk: the first child sharing a non-empty
common prefix with the query is entered; with no such child the walk stops
at the current node. -/
def walkCs (curKey query : Str) (self : RadixNode V) :
    List (Str × RadixNode V) → RadixNode V × Str
  | [] => (self, curKey)
  | (p, ch) :: rest =>
    let c := commonLongestPrefix query p
    if c = [] then walkCs curKey query self rest
    else walkNode (curKey ++ p) (query.drop c.length) ch

end

/-- RadixNode.completions, invoked on the root (as RadixTree.completions
does): walk as far as possible along the query; if nothing matched at the
root return the empty set, if the query is shorter than the key of the last
node reached return that key alone, otherwise return the full keys of that
node's children. The Python set is embedded as the list of its elements in
children order. -/
def completions (n : RadixNode V) (key : Str) : List Str :=
  match findCommonPrefixChild n.children key with
  | none => []
  | some (c, p, ch) =>
    let last := walkNode p (key.drop c.length) ch
    if key.length < last.2.length then [last.2]
    else last.1.children.map (fun e => last.2 ++ e.1)

end RadixNode

/-- The nested-dictionary shape produced by RadixNode.as_dict: keys are
child prefixes, values are the children's dictionaries. -/
inductive SDict : Type where
  | mk (entries : List (Str × SDict)) : SDict

/-- The entry list of a structural dictionary. -/
def SDict.entries : SDict → List (Str × SDict)
  | mk es => es

/-- Lookup in a structural dictionary (first entry with the given key). -/
def sdLookup (key : Str) : List (Str × SDict) → Option SDict
  | [] => none
  | (k, d) :: rest => if k = key then some d else sdLookup key rest

mutual

/-- RadixNode.as_dict / RadixTree.as_dict: the purely structural nested
dictionary of the subtree, one entry per child keyed by its prefix. -/
def RadixNode.asDict {V : Type} : RadixNode V → SDict
  | .mk _ cs => SDict.mk (asDictCs cs)

/-- as_dict applied to each entry of a children dict. -/
def RadixNode.asDictCs {V : Type} : List (Str × RadixNode V) → List (Str × SDict)
  | [] => []
  | (p, ch) :: rest => (p, ch.asDict) :: asDictCs rest

end

mutual

/-- Python dictionary equality (the == of nested dicts): same number of
keys, and every key of the left dict is present in the right one with ==
values, recursively. Entry order is irrelevant to ==. -/
def pyEqS : SDict → SDict → Bool
  | .mk es1, .mk es2 => (es1.length == es2.length) && pyEqEntries es1 es2

/-- Each left entry has a == partner under the same key on the right. -/
def pyEqEntries : List (Str × SDict) → List (Str × SDict) → Bool
  | [], _ => true
  | (k, d) :: rest, es2 =>
    (match sdLookup k es2 with
     | some d2 => pyEqS d d2
     | none => false) && pyEqEntries rest es2

end

/-- RadixTree.insert: reject the empty key (ValueError in the source), then
delegate to RadixNode.insert on the root. Keys are strings by type here;
the dynamically-typed rejection of non-strings is modelled separately. -/
def treeInsert {V : Type} (key : Str) (v : V) (root : RadixNode V) : Option (RadixNode V) :=
  if key = [] then none else some (root.insert key v)

/-- An empty tree: a root node with no value and no children. -/
def emptyTree (V : Type) : RadixNode V := .mk none []

/-- The tree obtained from a sequence of successful insert calls (all keys
non-empty) starting from the empty tree; this is what
RadixTree(key_value_pairs) builds when every key validates. -/
def buildTree {V : Type} (ps : List (Str × V)) : RadixNode V :=
  ps.foldl (fun t p => RadixNode.insert p.1 p.2 t) (emptyTree V)

mutual

/-- Whether every node below this one is stored under a non-empty prefix
(the root itself is exempt, matching the spec clause that only the root may
have an empty prefix). -/
def nonRootPrefixesNonempty {V : Type} : RadixNode V → Bool
  | .mk _ cs => nonRootPrefixesNonemptyCs cs

/-- Children-dict part of nonRootPrefixesNonempty. -/
def nonRootPrefixesNonemptyCs {V : Type} : List (Str × RadixNode V) → Bool
  | [] => true
  | (p, ch) :: rest =>
    !p.isEmpty && nonRootPrefixesNonempty ch && nonRootPrefixesNonemptyCs rest

end

/-- The tree of the completion scenario of the spec: the four words
computer, computing, compute, screen inserted in that order with arbitrary
values. -/
def completionScenarioTree {V : Type} (v1 v2 v3 v4 : V) : RadixNode V :=
  buildTree [("computer".toList, v1), ("computing".toList, v2),
             ("compute".toList, v3), ("screen".toList, v4)]

/-- The single error kind raised by the source for invalid keys
(ValueError, both for the empty string and for a non-string key) and by
failed tuple unpacking in the constructor loop. -/
inductive PyError : Type where
  | valueError : PyError
  deriving DecidableEq

/-- A dynamically-typed key as it reaches RadixTree.insert: a string, or a
non-string object (exemplified by an integer, as in the tests). -/
inductive PyKey : Type where
  | str (s : Str) : PyKey
  | int (n : Int) : PyKey
  deriving DecidableEq

/-- RadixTree.insert with the source's dynamic checks, in source order:
a key equal to the empty string is rejected, then a non-string key is
rejected, otherwise the insert is delegated to the root node. The tree is
untouched when an error is raised. -/
def treeInsertDyn {V : Type} (key : PyKey) (v : V) (root : RadixNode V) :
    Except PyError (RadixNode V) :=
  match key with
  | .str s => if s = [] then .error .valueError else .ok (root.insert s v)
  | .int _ => .error .valueError

/-- Whether RadixTree.insert rejects this key (empty string or non-string). -/
def isBadKey : PyKey → Bool
  | .str s => s.isEmpty
  | .int _ => true

/-- The eager constructor loop of RadixTree.__init__ over (key, value)
pairs: insert each pair in order, stopping at the first error; the tree
built so far is retained (prior successful calls are not rolled back). -/
def buildDyn {V : Type} : List (PyKey × V) → RadixNode V → RadixNode V × Option PyError
  | [], t => (t, none)
  | (k, v) :: rest, t =>
    match treeInsertDyn k v t with
    | .ok t2 => buildDyn rest t2
    | .error e => (t, some e)

/-- RadixTree(key_value_pairs) over dynamically-typed pairs. -/
def radixTreeDyn {V : Type} (ps : List (PyKey × V)) : RadixNode V × Option PyError :=
  buildDyn ps (emptyTree V)

/-- The pairs successfully inserted before the first invalid key. -/
def dynOkPrefix {V : Type} : List (PyKey × V) → List (Str × V)
  | [] => []
  | (.str s, v) :: rest => if s = [] then [] else (s, v) :: dynOkPrefix rest
  | (.int _, _) :: _ => []

/-- A dynamically-typed Python object used as a constructor value. -/
inductive PyObj : Type where
  | int (n : Int) : PyObj
  | str (s : Str) : PyObj
  deriving DecidableEq

/-- An element of the iterable passed to RadixTree.__init__: a (key, value)
pair, or a bare string. -/
inductive InitItem : Type where
  | pair (k : PyKey) (v : PyObj) : InitItem
  | bare (s : Str) : InitItem

/-- The tuple unpacking "key, value = element" performed by the loop header
of RadixTree.__init__: a pair unpacks to its components; a string unpacks
to its characters, which succeeds exactly for two-character strings (the
key and the value each becoming a one-character string) and raises
ValueError otherwise. -/
def unpackItem : InitItem → Except PyError (PyKey × PyObj)
  | .pair k v => .ok (k, v)
  | .bare s =>
    match s with
    | [c0, c1] => .ok (.str [c0], .str [c1])
    | _ => .error .valueError

/-- The eager loop of RadixTree.__init__: unpack each element of the
iterable as a (key, value) tuple, then insert it, stopping at the first
error with the partial tree retained. -/
def radixTreeInitGo : List InitItem → RadixNode PyObj → RadixNode PyObj × Option PyError
  | [], t => (t, none)
  | item :: rest, t =>
    match unpackItem item with
    | .error e => (t, some e)
    | .ok (k, v) =>
      match treeInsertDyn k v t with
      | .ok t2 => radixTreeInitGo rest t2
      | .error e => (t, some e)

/-- RadixTree.__init__ as written in the source, starting from an empty
root. -/
def radixTreeInit (items : List InitItem) : RadixNode PyObj × Option PyError :=
  radixTreeInitGo items (emptyTree PyObj)

/-- Modelled from the spec: the insertion-order ledger of RadixTree (an
ordered sequence of keys in first-insertion order; re-insertion of an
existing key does not change its position). The ledger itself is absent
from src/patrix/radix.py; only the spec and the repository's tests
describe it. -/
structure RadixTreeL (V : Type) : Type where
  root : RadixNode V
  ledger : List Str

/-- Modelled from the spec: the ledger update on insert — a new key is
appended, an existing key keeps its position. -/
def ledgerInsert (k : Str) (l : List Str) : List Str :=
  if k ∈ l then l else l ++ [k]

/-- A successful RadixTree.insert on the container with ledger: update the
root via the node-level insert of the source and record the key. -/
def insertL {V : Type} (k : Str) (v : V) (t : RadixTreeL V) : RadixTreeL V :=
  ⟨t.root.insert k v, ledgerInsert k t.ledger⟩

/-- The ledger container built by a sequence of successful inserts. -/
def buildL {V : Type} (ps : List (Str × V)) : RadixTreeL V :=
  ps.foldl (fun t p => insertL p.1 p.2 t) ⟨emptyTree V, []⟩

/-- Modelled from the spec: iteration over the tree (list(tree), keys())
follows the insertion-order ledger, not tree traversal order. -/
def treeIter {V : Type} (t : RadixTreeL V) : List Str := t.ledger

/-- The first-occurrence subsequence of a list of keys: each key listed at
the position of its first occurrence, later duplicates dropped. -/
def firstOccurrences : List Str → List Str
  | [] => []
  | k :: rest => k :: (firstOccurrences rest).filter (fun x => x ≠ k)

/-- What becomes of a node after a deletion inside its subtree, as seen by
its parent: it lives on (possibly restructured) under its own prefix, or it
collapsed into its only child, which the parent must re-key under the
concatenated prefix. -/
inductive NodeFate (V : Type) : Type where
  | keep (n : RadixNode V) : NodeFate V
  | merged (q : Str) (g : RadixNode V) : NodeFate V

mutual

/-- Modelled from the spec: Delete(key) on the children dict (delete is not
present in src/patrix/radix.py; only the spec and the repository's tests
describe it). Locate the terminal child by the same prefix walk as search;
fail (none) if there is no such child or it holds no value. Clear its
value; a cleared leaf is removed from the dict (signalled by the returned
flag so the parent can run its collapse check), a cleared node with exactly
one child is merged with it under the concatenated prefix, and a cleared
node with two or more children just loses its value. Returns the removed
value, whether a child was removed at this level, and the updated dict. -/
def deleteCs {V : Type} (key : Str) :
    List (Str × RadixNode V) → Option (V × Bool × List (Str × RadixNode V))
  | [] => none
  | (p, ch) :: rest =>
    let c := commonLongestPrefix key p
    if c = [] then
      (deleteCs key rest).map (fun r => (r.1, r.2.1, (p, ch) :: r.2.2))
    else if p = key ∧ c = p then
      match ch.value with
      | none => none
      | some v =>
        match ch.children with
        | [] => some (v, true, rest)
        | [(q, g)] => some (v, false, (p ++ q, g) :: rest)
        | cs2 => some (v, false, (p, .mk none cs2) :: rest)
    else if c = p then
      (deleteNode (key.drop c.length) ch).map (fun r =>
        match r.2 with
        | .keep n2 => (r.1, false, (p, n2) :: rest)
        | .merged q g => (r.1, false, (p ++ q, g) :: rest))
    else none

/-- Modelled from the spec: Delete(key) below this node, reporting the
node's own fate: when the deletion removed a child and left this node
valueless with exactly one remaining child, the node merges with that child
(the collapse propagation of the spec); otherwise it carries on with the
updated children. -/
def deleteNode {V : Type} (key : Str) : RadixNode V → Option (V × NodeFate V)
  | .mk val cs =>
    match deleteCs key cs with
    | none => none
    | some (v, removed, cs2) =>
      if removed then
        match val, cs2 with
        | none, [(q, g)] => some (v, .merged q g)
        | _, _ => some (v, .keep (.mk val cs2))
      else some (v, .keep (.mk val cs2))

end

/-- Modelled from the spec: RadixTree.pop(key) — delete via the node
algorithm starting at the root and return the removed value with the new
root; the root itself is never merged away, so a merged fate at the root
is kept as a root with that single child. Invalid keys (here: the empty
string) and missing keys yield none. -/
def treePop {V : Type} (key : Str) (t : RadixNode V) : Option (V × RadixNode V) :=
  if key = [] then none
  else
    match deleteNode key t with
    | none => none
    | some (v, .keep n2) => some (v, n2)
    | some (v, .merged q g) => some (v, .mk none [(q, g)])

/-- The reserved key "__value__" of the asdict interchange format. -/
def reservedKey : Str := "__value__".toList

/-- A dynamically-typed Python value as stored in tree nodes and produced
by asdict: either a nested dictionary or an opaque base value. -/
inductive PyVal (V : Type) : Type where
  | dict (entries : List (Str × PyVal V)) : PyVal V
  | base (v : V) : PyVal V

/-- The entries of a dictionary value (empty for a base value). -/
def PyVal.entries {V : Type} : PyVal V → List (Str × PyVal V)
  | .dict es => es
  | .base _ => []

/-- Python dict assignment d[k] = v on an entry list: update in place if the
key is present, append otherwise. -/
def dInsertPy {V : Type} (k : Str) (v : PyVal V) :
    List (Str × PyVal V) → List (Str × PyVal V)
  | [] => [(k, v)]
  | (k2, v2) :: rest => if k2 = k then (k, v) :: rest else (k2, v2) :: dInsertPy k v rest

/-- Python dict lookup d[k] on an entry list. -/
def pyLookup {V : Type} (k : Str) : List (Str × PyVal V) → Option (PyVal V)
  | [] => none
  | (k2, v2) :: rest => if k2 = k then some v2 else pyLookup k rest

/-- Append a node's value under the reserved key, when present. -/
def appendValue {V : Type} (val : Option (PyVal V)) (es : List (Str × PyVal V)) :
    List (Str × PyVal V) :=
  match val with
  | none => es
  | some pv => dInsertPy reservedKey pv es

mutual

/-- Modelled from the spec: asdict with include_values enabled (absent from
src/patrix/radix.py, whose as_dict is purely structural; the spec and the
repository's tests describe the value-carrying export). Each node
contributes one level keyed by its children's prefixes and, when the node
holds a value, the reserved "__value__" entry carrying it, assigned after
the children as the source constructs the dict. -/
def asdictV {V : Type} : RadixNode (PyVal V) → PyVal V
  | .mk val cs => .dict (appendValue val (asdictVCs cs))

/-- asdict applied to each entry of a children dict. -/
def asdictVCs {V : Type} : List (Str × RadixNode (PyVal V)) → List (Str × PyVal V)
  | [] => []
  | (p, ch) :: rest => (p, asdictV ch) :: asdictVCs rest

end

mutual

/-- Modelled from the spec: RadixTree.from_dict (absent from
src/patrix/radix.py; the spec and the repository's tests describe it) —
rebuild a node from one dictionary level, recovering the "__value__" entry
as the node's value and every other entry as a child under its prefix. A
non-dictionary payload is kept as a bare value leaf. -/
def fromDict {V : Type} : PyVal V → RadixNode (PyVal V)
  | .dict es => .mk (pyLookup reservedKey es) (fromDictCs es)
  | .base v => .mk (some (.base v)) []

/-- from_dict applied to each non-reserved entry of a dictionary level. -/
def fromDictCs {V : Type} : List (Str × PyVal V) → List (Str × RadixNode (PyVal V))
  | [] => []
  | (k, pv) :: rest =>
    if k = reservedKey then fromDictCs rest else (k, fromDict pv) :: fromDictCs rest

end

mutual

/-- Python equality == of dynamically-typed values: dictionaries compare as
dictionaries (same size, every left key present on the right with == value,
order-insensitively), base values by equality, and a dictionary never
equals a base value. -/
def pyEqV {V : Type} [DecidableEq V] : PyVal V → PyVal V → Bool
  | .dict es1, .dict es2 => (es1.length == es2.length) && pyEqVEntries es1 es2
  | .base a, .base b => a == b
  | _, _ => false

/-- Each left entry has a == partner under the same key on the right. -/
def pyEqVEntries {V : Type} [DecidableEq V] :
    List (Str × PyVal V) → List (Str × PyVal V) → Bool
  | [], _ => true
  | (k, d) :: rest, es2 =>
    (match pyLookup k es2 with
     | some d2 => pyEqV d d2
     | none => false) && pyEqVEntries rest es2

end

mutual

/-- Whether every dictionary inside this value has pairwise-distinct keys
(true of every value a Python program can build, since Python dicts cannot
hold duplicate keys). -/
def pyValND {V : Type} : PyVal V → Bool
  | .base _ => true
  | .dict es => decide ((es.map Prod.fst).Nodup) && pyValNDCs es

/-- pyValND over dictionary entries. -/
def pyValNDCs {V : Type} : List (Str × PyVal V) → Bool
  | [] => true
  | (_, pv) :: rest => pyValND pv && pyValNDCs rest

end

mutual

/-- Whether every children dict in this tree has pairwise-distinct keys and
every stored value is a well-formed Python value — true of every tree a
Python program can hold. -/
def treeND {V : Type} : RadixNode (PyVal V) → Bool
  | .mk val cs =>
    (match val with
     | none => true
     | some pv => pyValND pv) &&
    decide ((cs.map Prod.fst).Nodup) && treeNDCs cs

/-- treeND over children entries. -/
def treeNDCs {V : Type} : List (Str × RadixNode (PyVal V)) → Bool
  | [] => true
  | (_, ch) :: rest => treeND ch && treeNDCs rest

end

mutual

/-- Whether no node below this one is stored under the reserved key
"__value__" (the caller constraint the spec flags for the interchange
format). -/
def noReservedPrefix {V : Type} : RadixNode V → Bool
  | .mk _ cs => noReservedPrefixCs cs

/-- noReservedPrefix over children entries. -/
def noReservedPrefixCs {V : Type} : List (Str × RadixNode V) → Bool
  | [] => true
  | (p, ch) :: rest =>
    !(p == reservedKey) && noReservedPrefix ch && noReservedPrefixCs rest

end

mutual

/-- The full keys reconstructed from a subtree: the concatenated prefixes
from the root down to each value-holding node, in depth-first order. -/
def nodeKeys {V : Type} (acc : Str) : RadixNode V → List Str
  | .mk val cs =>
    (match val with
     | none => []
     | some _ => [acc]) ++ nodeKeysCs acc cs

/-- nodeKeys over children entries. -/
def nodeKeysCs {V : Type} (acc : Str) : List (Str × RadixNode V) → List Str
  | [] => []
  | (p, ch) :: rest => nodeKeys (acc ++ p) ch ++ nodeKeysCs acc rest

end

/-- Whether the strings of a list pairwise share no non-empty common
leading run. -/
def pairwiseLcpEmpty : List Str → Bool
  | [] => true
  | k :: rest =>
    rest.all (fun k2 => (commonLongestPrefix k k2).isEmpty) && pairwiseLcpEmpty rest

mutual

/-- The compression invariant at every node of the subtree: no two distinct
children's prefixes share a non-empty common leading run. -/
def allNodesCompressed {V : Type} : RadixNode V → Bool
  | .mk _ cs => pairwiseLcpEmpty (cs.map Prod.fst) && allNodesCompressedCs cs

/-- allNodesCompressed over children entries. -/
def allNodesCompressedCs {V : Type} : List (Str × RadixNode V) → Bool
  | [] => true
  | (_, ch) :: rest => allNodesCompressed ch && allNodesCompressedCs rest

end

/-- Two strings share their first symbol. -/
def sharesHead (a b : Str) : Prop :=
  a ≠ [] ∧ b ≠ [] ∧ a.head? = b.head?

/-- A child entry is allowed an empty prefix only when it is a leaf holding
a value. -/
def okEmptyEntry {V : Type} (p : Str) (ch : RadixNode V) : Bool :=
  !p.isEmpty || (ch.children.isEmpty && ch.value.isSome)

mutual

/-- Whether every empty-prefix node below this one is a value-holding
leaf. -/
def emptyPrefixValuedLeaves {V : Type} : RadixNode V → Bool
  | .mk _ cs => emptyPrefixValuedLeavesCs cs

/-- emptyPrefixValuedLeaves over children entries. -/
def emptyPrefixValuedLeavesCs {V : Type} : List (Str × RadixNode V) → Bool
  | [] => true
  | (p, ch) :: rest =>
    okEmptyEntry p ch && emptyPrefixValuedLeaves ch && emptyPrefixValuedLeavesCs rest

end

/-- Decidability of the key order used for canonical sorting. -/
instance decKeyLe {α : Type} : DecidableRel (fun (a b : Str × α) => a.1 ≤ b.1) :=
  fun a b => inferInstanceAs (Decidable (a.1 ≤ b.1))

/-- Totality of the key order. -/
instance keyLeTotal {α : Type} : IsTotal (Str × α) (fun a b => a.1 ≤ b.1) :=
  ⟨fun a b => le_total a.1 b.1⟩

/-- Transitivity of the key order. -/
instance keyLeTrans {α : Type} : IsTrans (Str × α) (fun a b => a.1 ≤ b.1) :=
  ⟨fun _ _ _ h1 h2 => le_trans h1 h2⟩

mutual

/-- The canonical form of a tree: every children dict sorted by prefix.
Two trees are the same Python-== dictionary structure exactly when their
canonical forms agree (children order inside a dict never matters to ==). -/
def canonize {V : Type} : RadixNode V → RadixNode V
  | .mk val cs => .mk val (List.insertionSort (fun a b => a.1 ≤ b.1) (canonizeCs cs))

/-- canonize applied to each entry of a children dict. -/
def canonizeCs {V : Type} : List (Str × RadixNode V) → List (Str × RadixNode V)
  | [] => []
  | (p, ch) :: rest => (p, canonize ch) :: canonizeCs rest

end

mutual

/-- All key/value bindings stored in the subtree, as keys relative to this
node (the value of the node itself appears under the empty relative key). -/
def keyvals {V : Type} : RadixNode V → List (Str × V)
  | .mk val cs =>
    (match val with
     | none => []
     | some v => [([], v)]) ++ keyvalsCs cs

/-- The bindings contributed by each child, prefixed by its key. -/
def keyvalsCs {V : Type} : List (Str × RadixNode V) → List (Str × V)
  | [] => []
  | (p, ch) :: rest => (keyvals ch).map (fun e => (p ++ e.1, e.2)) ++ keyvalsCs rest

end

mutual

/-- The shape discipline of subtrees built from pairwise prefix-free keys:
every node is either a leaf holding a value, or a valueless branching node
with at least two children, recursively. -/
def goodShape {V : Type} : RadixNode V → Bool
  | .mk (some _) [] => true
  | .mk none (e1 :: e2 :: rest) => goodShapeCs (e1 :: e2 :: rest)
  | _ => false

/-- goodShape over children entries. -/
def goodShapeCs {V : Type} : List (Str × RadixNode V) → Bool
  | [] => true
  | (_, ch) :: rest => goodShape ch && goodShapeCs rest

end

/-- The contract of a successful delete below a node, by fate: the
resulting node (or the merge replacement) keeps the invariants and loses
exactly the deleted binding. -/
def deleteFateOk {V : Type} (k : Str) (v : V) (n : RadixNode V) : NodeFate V → Prop
  | .keep n2 =>
      RadixNode.value n2 = RadixNode.value n ∧
      allNodesCompressed n2 = true ∧
      nonRootPrefixesNonempty n2 = true ∧
      goodShapeCs (RadixNode.children n2) = true ∧
      ((k, v) :: keyvals n2).Perm (keyvals n) ∧
      (RadixNode.value n = none → 2 ≤ (RadixNode.children n).length →
        goodShape n2 = true)
  | .merged q g =>
      q ≠ [] ∧
      allNodesCompressed g = true ∧
      nonRootPrefixesNonempty g = true ∧
      goodShape g = true ∧
      ((k, v) :: (keyvals g).map (fun e => (q ++ e.1, e.2))).Perm (keyvals n)

/-!  ## Theorems  -/

/-- The constructor loop over dynamically-typed pairs builds exactly the
tree of the pairs before the first invalid key, and reports an error iff
some key is invalid. -/
theorem buildDyn_spec {V : Type} (ps : List (PyKey × V)) :
    ∀ t, (buildDyn ps t).1 = (dynOkPrefix ps).foldl (fun a p => RadixNode.insert p.1 p.2 a) t ∧
      (buildDyn ps t).2.isSome = ps.any (fun p => isBadKey p.1) := by
  induction ps with
  | nil => intro t; simp [buildDyn, dynOkPrefix]
  | cons hd rest ih =>
    intro t
    obtain ⟨k, v⟩ := hd
    cases k with
    | str s =>
      by_cases hs : s = []
      · subst hs
        simp [buildDyn, treeInsertDyn, dynOkPrefix, isBadKey]
      · simp [buildDyn, treeInsertDyn, dynOkPrefix, isBadKey, hs, ih,
          List.isEmpty_iff]
    | int n =>
      simp [buildDyn, treeInsertDyn, dynOkPrefix, isBadKey]

/-- The ledger of a build equals the accumulator extended by the
first occurrences of the new keys not already recorded. -/
theorem buildL_ledger_aux {V : Type} (ps : List (Str × V)) :
    ∀ (r : RadixNode V) (acc : List Str),
      (ps.foldl (fun t p => insertL p.1 p.2 t) ⟨r, acc⟩).ledger
        = acc ++ (firstOccurrences (ps.map Prod.fst)).filter (fun x => decide (x ∉ acc)) := by
  induction ps with
  | nil => intro r acc; simp [firstOccurrences]
  | cons hd rest ih =>
    intro r acc
    obtain ⟨k, v⟩ := hd
    by_cases hk : k ∈ acc
    · have h1 : insertL k v ⟨r, acc⟩ = ⟨r.insert k v, acc⟩ := by
        simp [insertL, ledgerInsert, hk]
      rw [List.foldl_cons, h1, ih]
      have h2 : ∀ l : List Str,
          (l.filter (fun x => decide (x ≠ k))).filter (fun x => decide (x ∉ acc))
            = l.filter (fun x => decide (x ∉ acc)) := by
        intro l
        rw [List.filter_filter]
        apply List.filter_congr
        intro x _
        by_cases hx : x = k
        · subst hx; simp [hk]
        · simp [hx]
      simp only [firstOccurrences, List.map_cons, List.filter_cons]
      simp [hk, h2]
      apply List.filter_congr
      intro x _
      by_cases hx : x = k
      · subst hx; simp [hk]
      · simp [hx]
    · have h1 : insertL k v ⟨r, acc⟩ = ⟨r.insert k v, acc ++ [k]⟩ := by
        simp [insertL, ledgerInsert, hk]
      rw [List.foldl_cons, h1, ih]
      have h2 : ∀ l : List Str,
          (l.filter (fun x => decide (x ≠ k))).filter (fun x => decide (x ∉ acc))
            = l.filter (fun x => decide (x ∉ acc ++ [k])) := by
        intro l
        rw [List.filter_filter]
        apply List.filter_congr
        intro x _
        by_cases hx : x = k
        · subst hx; simp
        · simp [hx]
      simp only [firstOccurrences, List.map_cons, List.filter_cons]
      simp [hk, h2, List.append_assoc]

/-- C7: RadixTree.insert (and the eagerly-inserting constructor) raises the
invalid-key ValueError exactly when the key is the empty string or not a
string; a raising call leaves the tree as built by the prior successful
calls, which are kept; constructing with ("", 1) or (1, 1) among the pairs
raises before construction completes. -/
theorem C7_invalid_key_rejection :
    (∀ {V : Type} (k : PyKey) (v : V) (t : RadixNode V),
        treeInsertDyn k v t = .error .valueError ↔ (k = .str [] ∨ ∃ n, k = .int n)) ∧
    (∀ {V : Type} (ps : List (PyKey × V)),
        (radixTreeDyn ps).1 = buildTree (dynOkPrefix ps) ∧
        (radixTreeDyn ps).2.isSome = ps.any (fun p => isBadKey p.1)) ∧
    (radixTreeDyn [(.str [], (1 : Int)), (.str "computer".toList, 2)]).2
        = some .valueError ∧
    (radixTreeDyn [(.int 1, (1 : Int)), (.str "computer".toList, 2)]).2
        = some .valueError := by
  refine ⟨?_, ?_, rfl, rfl⟩
  · intro V k v t
    cases k with
    | str s =>
      by_cases hs : s = [] <;> simp [treeInsertDyn, hs]
    | int n => simp [treeInsertDyn]
  · intro V ps
    exact buildDyn_spec ps (emptyTree V)

/-- C8: the constructor in the source cannot take bare string keys, contrary
to the claim (and to the repository's own tests, which construct
RadixTree(["computer", ...])): unpacking the loop target "key, value" over
the bare key computer raises ValueError, and a two-character bare key such
as ab is silently misparsed into key a with value b instead of inserting
the key ab. -/
theorem C8_construction_bare_keys_fail :
    (radixTreeInit [.bare "computer".toList]).2 = some .valueError ∧
    (radixTreeInit [.bare "ab".toList]).1
        = .mk none [(['a'], .mk (some (.str ['b'])) [])] ∧
    (radixTreeInit [.bare "ab".toList]).2 = none := by
  exact ⟨rfl, rfl, rfl⟩

/-- C5: iteration of the ledger container (list(tree), keys()) yields the
keys in first-insertion order — the first-occurrence subsequence of the
inserted key sequence, so re-insertion of an existing key keeps its
original position — and in particular inserting compute, computer,
computing then iterating yields exactly that order. -/
theorem C5_insertion_order_iteration :
    (∀ {V : Type} (ps : List (Str × V)), (∀ p ∈ ps, p.1 ≠ []) →
        treeIter (buildL ps) = firstOccurrences (ps.map Prod.fst)) ∧
    treeIter (buildL [("compute".toList, 1), ("computer".toList, 2), ("computing".toList, 3)])
      = ["compute".toList, "computer".toList, "computing".toList] := by
  constructor
  · intro V ps _
    have h := buildL_ledger_aux ps (emptyTree V) []
    simpa [buildL, treeIter] using h
  · rfl

/-- Witness for C5 at a concrete input with a re-inserted key: the ledger
keeps the first position of the duplicate key a. -/
theorem C5_witness :
    treeIter (buildL [("a".toList, 1), ("ab".toList, 2), ("a".toList, 3)])
      = firstOccurrences ["a".toList, "ab".toList, "a".toList] :=
  C5_insertion_order_iteration.1
    [("a".toList, 1), ("ab".toList, 2), ("a".toList, 3)] (by decide)

/-- C4: after inserting computer, computing, compute, screen into an empty
tree, the completion sets are: comp ↦ {comput}, comput ↦ {compute,
computing}, compute ↦ {compute, computer}, computing ↦ {}, s ↦ {screen},
a ↦ {}. -/
theorem C4_completion_correctness {V : Type} (v1 v2 v3 v4 : V) :
    ((completionScenarioTree v1 v2 v3 v4).completions "comp".toList).toFinset
        = {"comput".toList} ∧
    ((completionScenarioTree v1 v2 v3 v4).completions "comput".toList).toFinset
        = {"computing".toList, "compute".toList} ∧
    ((completionScenarioTree v1 v2 v3 v4).completions "compute".toList).toFinset
        = {"computer".toList, "compute".toList} ∧
    ((completionScenarioTree v1 v2 v3 v4).completions "computing".toList).toFinset
        = ∅ ∧
    ((completionScenarioTree v1 v2 v3 v4).completions "s".toList).toFinset
        = {"screen".toList} ∧
    ((completionScenarioTree v1 v2 v3 v4).completions "a".toList).toFinset
        = ∅ := by
  refine ⟨rfl, ?_, ?_, rfl, rfl, rfl⟩ <;> rfl

/-- C10: with only the key computer inserted, completions of the query
compX (which is not a prefix of computer) is the nonempty set {computer}:
the walk stops at the computer node with unconsumed query remainder X, the
query is shorter than that node's key, and the node's full key is returned
without checking the remainder against it. -/
theorem C10_completion_not_prefix :
    ((buildTree [("computer".toList, 1)]).completions "compX".toList).toFinset
        = {"computer".toList} ∧
    ¬ "compX".toList <+: "computer".toList := by
  exact ⟨rfl, by decide⟩

/-- C2 counterexample: the bindings (a, 1), (ab, 2) — distinct non-empty
keys — inserted in the two possible orders give trees whose as_dict
exports are NOT equal as Python dictionaries: inserting a after ab splits
the ab child and leaves an empty-prefix child holding the value of a,
while inserting ab after a extends the a child, so the shapes differ. -/
theorem C2_counterexample :
    [("a".toList, 1), ("ab".toList, 2)].Perm [("ab".toList, 2), ("a".toList, 1)] ∧
    pyEqS (buildTree [("a".toList, 1), ("ab".toList, 2)]).asDict
          (buildTree [("ab".toList, 2), ("a".toList, 1)]).asDict = false := by
  exact ⟨by decide, rfl⟩

/-- C9 counterexample: inserting computer then compute (the inserted key a
strict prefix of the existing child's prefix) creates a node with an empty
prefix below the root, so it is not the case that every non-root node has
a non-empty prefix. -/
theorem C9_counterexample :
    nonRootPrefixesNonempty (buildTree [("computer".toList, 1), ("compute".toList, 2)])
      = false := by
  rfl

/-- C6 counterexample: in the tree built from (ab, 1), (a, 2) the key ab is
present with value 2 stored in an empty-prefix child; pop(ab) merges the a
node with that child, and re-inserting ab with its old value 1 then stores
the value of a on the a node itself instead of recreating the empty-prefix
child, so the as_dict export is not restored (the dictionaries are not
equal under Python ==). -/
theorem C6_counterexample :
    treePop "ab".toList (buildTree [("ab".toList, 1), ("a".toList, 2)])
      = some (1, .mk none [(['a'], .mk (some 2) [])]) ∧
    pyEqS (((RadixNode.mk none [(['a'], RadixNode.mk (some 2) [])]).insert "ab".toList 1).asDict)
          ((buildTree [("ab".toList, 1), ("a".toList, 2)]).asDict) = false := by
  exact ⟨rfl, rfl⟩

/-- Structural induction for the nested node type: to prove a property of
every node it suffices to prove it for a node given it for all children. -/
theorem nodeInd {V : Type} (P : RadixNode V → Prop)
    (h : ∀ val cs, (∀ e ∈ cs, P e.2) → P (RadixNode.mk val cs)) (n : RadixNode V) :
    P n :=
  match n with
  | .mk val cs => h val cs (fun e he => nodeInd P h e.2)
termination_by sizeOf n
decreasing_by
  have h1 := List.sizeOf_lt_of_mem he
  obtain ⟨a, b⟩ := e
  simp at h1 ⊢
  omega

/-- Structural induction for dynamically-typed values. -/
theorem pyValInd {V : Type} (P : PyVal V → Prop) (hb : ∀ v, P (.base v))
    (hd : ∀ es, (∀ e ∈ es, P e.2) → P (.dict es)) (pv : PyVal V) : P pv :=
  match pv with
  | .base v => hb v
  | .dict es => hd es (fun e he => pyValInd P hb hd e.2)
termination_by sizeOf pv
decreasing_by
  have h1 := List.sizeOf_lt_of_mem he
  obtain ⟨a, b⟩ := e
  simp at h1 ⊢
  omega

/-- Looking up the key just assigned returns the assigned value. -/
theorem pyLookup_dInsertPy_self {V : Type} (k : Str) (v : PyVal V)
    (es : List (Str × PyVal V)) : pyLookup k (dInsertPy k v es) = some v := by
  induction es with
  | nil => simp [dInsertPy, pyLookup]
  | cons hd rest ih =>
    obtain ⟨k2, v2⟩ := hd
    by_cases h : k2 = k <;> simp [dInsertPy, pyLookup, h, ih]

/-- Assignment to one key does not change lookups of another. -/
theorem pyLookup_dInsertPy_ne {V : Type} (k k2 : Str) (v : PyVal V)
    (es : List (Str × PyVal V)) (h : k2 ≠ k) :
    pyLookup k2 (dInsertPy k v es) = pyLookup k2 es := by
  have hne : k ≠ k2 := fun hh => h hh.symm
  induction es with
  | nil => simp [dInsertPy, pyLookup, hne]
  | cons hd rest ih =>
    obtain ⟨k3, v3⟩ := hd
    by_cases h3 : k3 = k
    · subst h3
      simp [dInsertPy, pyLookup, hne]
    · by_cases h4 : k3 = k2 <;> simp [dInsertPy, pyLookup, h3, h4, ih, hne, h]

/-- Assignment to a key does not change the entries under other keys. -/
theorem filter_dInsertPy {V : Type} (k : Str) (v : PyVal V)
    (es : List (Str × PyVal V)) :
    (dInsertPy k v es).filter (fun e => !(e.1 == k))
      = es.filter (fun e => !(e.1 == k)) := by
  induction es with
  | nil => simp [dInsertPy]
  | cons hd rest ih =>
    obtain ⟨k2, v2⟩ := hd
    by_cases h : k2 = k <;> simp [dInsertPy, h, ih]

/-- Lookup fails exactly when the key is absent. -/
theorem pyLookup_eq_none_iff {V : Type} (k : Str) (es : List (Str × PyVal V)) :
    pyLookup k es = none ↔ k ∉ es.map Prod.fst := by
  induction es with
  | nil => simp [pyLookup]
  | cons hd rest ih =>
    obtain ⟨k2, v2⟩ := hd
    by_cases h : k2 = k
    · subst h
      simp [pyLookup]
    · have h2 : k ≠ k2 := fun hh => h hh.symm
      simp [pyLookup, h, h2, ih]

/-- A successful lookup returns an entry of the list. -/
theorem pyLookup_mem {V : Type} (k : Str) (es : List (Str × PyVal V))
    (d : PyVal V) (h : pyLookup k es = some d) : (k, d) ∈ es := by
  induction es with
  | nil => simp [pyLookup] at h
  | cons hd rest ih =>
    obtain ⟨k2, v2⟩ := hd
    by_cases h2 : k2 = k
    · subst h2
      simp [pyLookup] at h
      simp [h]
    · simp [pyLookup, h2] at h
      simp [ih h]

/-- With pairwise-distinct keys, lookup of a present entry returns it. -/
theorem pyLookup_of_mem_nodup {V : Type} {k : Str} {d : PyVal V}
    {es : List (Str × PyVal V)} (hnd : (es.map Prod.fst).Nodup)
    (hm : (k, d) ∈ es) : pyLookup k es = some d := by
  induction es with
  | nil => simp at hm
  | cons hd rest ih =>
    obtain ⟨k2, v2⟩ := hd
    rw [List.map_cons, List.nodup_cons] at hnd
    rcases List.mem_cons.mp hm with h1 | h1
    · rw [Prod.mk.injEq] at h1
      obtain ⟨h1a, h1b⟩ := h1
      subst h1a
      subst h1b
      simp [pyLookup]
    · have hne : k2 ≠ k := by
        intro hh
        subst hh
        exact absurd (List.mem_map_of_mem Prod.fst h1) hnd.1
      simp [pyLookup, hne, ih hnd.2 h1]

/-- The serialized children dict is the children map under asdict. -/
theorem asdictVCs_eq_map {V : Type} (cs : List (Str × RadixNode (PyVal V))) :
    asdictVCs cs = cs.map (fun e => (e.1, asdictV e.2)) := by
  induction cs with
  | nil => simp [asdictVCs]
  | cons hd rest ih =>
    obtain ⟨p, ch⟩ := hd
    simp [asdictVCs, ih]

/-- from_dict keeps exactly the non-reserved entries, each rebuilt. -/
theorem fromDictCs_eq {V : Type} (es : List (Str × PyVal V)) :
    fromDictCs es = (es.filter (fun e => !(e.1 == reservedKey))).map
      (fun e => (e.1, fromDict e.2)) := by
  induction es with
  | nil => simp [fromDictCs]
  | cons hd rest ih =>
    obtain ⟨k, pv⟩ := hd
    by_cases h : k = reservedKey <;> simp [fromDictCs, h, ih]

/-- Removing the entries under a present key shortens the list by one when
keys are pairwise distinct. -/
theorem length_filter_ne_of_nodup {V : Type} {k : Str}
    {es : List (Str × PyVal V)} (hnd : (es.map Prod.fst).Nodup)
    (hm : k ∈ es.map Prod.fst) :
    (es.filter (fun e => !(e.1 == k))).length + 1 = es.length := by
  induction es with
  | nil => simp at hm
  | cons hd rest ih =>
    obtain ⟨k2, v2⟩ := hd
    rw [List.map_cons, List.nodup_cons] at hnd
    rw [List.map_cons, List.mem_cons] at hm
    rcases hm with h1 | h1
    · have hr : rest.filter (fun e => !(e.1 == k)) = rest := by
        apply List.filter_eq_self.mpr
        intro e he
        have hne : e.1 ≠ k := by
          intro hh
          apply hnd.1
          have hmem : e.1 ∈ rest.map Prod.fst := List.mem_map_of_mem Prod.fst he
          rw [hh, h1] at hmem
          exact hmem
        simp [hne]
      have hcond : k2 = k := h1.symm
      simp [List.filter_cons, hcond, hr]
    · have hne : k2 ≠ k := fun hh => hnd.1 (hh ▸ h1)
      have := ih hnd.2 h1
      simp [List.filter_cons, hne]
      omega

/-- The entries under keys other than an absent key are the whole list. -/
theorem filter_ne_eq_self {V : Type} {k : Str} {es : List (Str × PyVal V)}
    (h : k ∉ es.map Prod.fst) :
    es.filter (fun e => !(e.1 == k)) = es := by
  apply List.filter_eq_self.mpr
  intro e he
  have hne : e.1 ≠ k := fun hh => absurd (hh ▸ List.mem_map_of_mem Prod.fst he) h
  simp [hne]

/-- The keys after an assignment: unchanged for an update, extended by the
new key for an append. -/
theorem map_fst_dInsertPy {V : Type} (k : Str) (v : PyVal V)
    (es : List (Str × PyVal V)) :
    (dInsertPy k v es).map Prod.fst
      = if k ∈ es.map Prod.fst then es.map Prod.fst else es.map Prod.fst ++ [k] := by
  induction es with
  | nil => simp [dInsertPy]
  | cons hd rest ih =>
    obtain ⟨k2, v2⟩ := hd
    by_cases h : k2 = k
    · subst h
      simp [dInsertPy]
    · have h2 : k ≠ k2 := fun hh => h hh.symm
      by_cases hm : k ∈ rest.map Prod.fst <;> simp [dInsertPy, h, h2, hm, ih]

/-- Entry-wise well-formedness gives well-formedness of each member. -/
theorem pyValNDCs_mem {V : Type} {es : List (Str × PyVal V)}
    (h : pyValNDCs es = true) {e : Str × PyVal V} (he : e ∈ es) :
    pyValND e.2 = true := by
  induction es with
  | nil => simp at he
  | cons hd rest ih =>
    obtain ⟨k, pv⟩ := hd
    rw [pyValNDCs] at h
    rcases List.mem_cons.mp he with h1 | h1
    · subst h1
      exact (Bool.and_eq_true_iff.mp h).1
    · exact ih (Bool.and_eq_true_iff.mp h).2 h1

/-- Entry-wise well-formedness from well-formedness of each member. -/
theorem pyValNDCs_of_forall {V : Type} {es : List (Str × PyVal V)}
    (h : ∀ e ∈ es, pyValND e.2 = true) : pyValNDCs es = true := by
  induction es with
  | nil => rfl
  | cons hd rest ih =>
    obtain ⟨k, pv⟩ := hd
    rw [pyValNDCs, Bool.and_eq_true_iff]
    refine ⟨h (k, pv) (List.mem_cons_self ..), ?_⟩
    exact ih (fun e hme => h e (List.mem_cons_of_mem _ hme))

/-- Tree well-formedness gives well-formedness of each child. -/
theorem treeNDCs_mem {V : Type} {cs : List (Str × RadixNode (PyVal V))}
    (h : treeNDCs cs = true) {e : Str × RadixNode (PyVal V)} (he : e ∈ cs) :
    treeND e.2 = true := by
  induction cs with
  | nil => simp at he
  | cons hd rest ih =>
    obtain ⟨k, ch⟩ := hd
    rw [treeNDCs] at h
    rcases List.mem_cons.mp he with h1 | h1
    · subst h1
      exact (Bool.and_eq_true_iff.mp h).1
    · exact ih (Bool.and_eq_true_iff.mp h).2 h1

/-- Assignment preserves entry-wise well-formedness. -/
theorem pyValNDCs_dInsertPy {V : Type} {k : Str} {v : PyVal V}
    {es : List (Str × PyVal V)} (h : pyValNDCs es = true)
    (hv : pyValND v = true) : pyValNDCs (dInsertPy k v es) = true := by
  induction es with
  | nil => simp [dInsertPy, pyValNDCs, hv]
  | cons hd rest ih =>
    obtain ⟨k2, v2⟩ := hd
    rw [pyValNDCs, Bool.and_eq_true_iff] at h
    by_cases h2 : k2 = k
    · subst h2
      simp [dInsertPy, pyValNDCs, hv, h.2]
    · simp [dInsertPy, pyValNDCs, h2, h.1, ih h.2]

/-- Entry lists with pointwise matching lookups compare equal entry-wise. -/
theorem pyEqVEntries_of_forall {V : Type} [DecidableEq V]
    {es1 es2 : List (Str × PyVal V)}
    (h : ∀ e ∈ es1, ∃ d2, pyLookup e.1 es2 = some d2 ∧ pyEqV e.2 d2 = true) :
    pyEqVEntries es1 es2 = true := by
  induction es1 with
  | nil => rfl
  | cons hd rest ih =>
    obtain ⟨k, d⟩ := hd
    obtain ⟨d2, hl, he⟩ := h (k, d) (List.mem_cons_self ..)
    rw [pyEqVEntries, hl, Bool.and_eq_true_iff]
    exact ⟨he, ih (fun e hme => h e (List.mem_cons_of_mem _ hme))⟩

/-- Python == is reflexive on well-formed values (every value an actual
Python dict tree can be). -/
theorem pyEqV_refl {V : Type} [DecidableEq V] (pv : PyVal V) :
    pyValND pv = true → pyEqV pv pv = true := by
  induction pv using pyValInd with
  | hb v => intro _; simp [pyEqV]
  | hd es ih =>
    intro h
    rw [pyValND, Bool.and_eq_true_iff] at h
    rw [pyEqV, Bool.and_eq_true_iff]
    refine ⟨by simp, ?_⟩
    apply pyEqVEntries_of_forall
    intro e he
    refine ⟨e.2, ?_, ih e he (pyValNDCs_mem h.2 he)⟩
    have hnd : (es.map Prod.fst).Nodup := of_decide_eq_true h.1
    obtain ⟨k, d⟩ := e
    exact pyLookup_of_mem_nodup hnd he

/-- Serialization keeps the children's keys. -/
theorem map_fst_asdictVCs {V : Type} (cs : List (Str × RadixNode (PyVal V))) :
    (asdictVCs cs).map Prod.fst = cs.map Prod.fst := by
  rw [asdictVCs_eq_map, List.map_map]
  rfl

/-- Every serialized entry comes from a child. -/
theorem mem_asdictVCs {V : Type} {cs : List (Str × RadixNode (PyVal V))}
    {e : Str × PyVal V} (he : e ∈ asdictVCs cs) :
    ∃ ch, (e.1, ch) ∈ cs ∧ e.2 = asdictV ch := by
  rw [asdictVCs_eq_map] at he
  obtain ⟨a, ha, hae⟩ := List.mem_map.mp he
  exact ⟨a.2, by rw [← hae]; exact ha, by rw [← hae]⟩

/-- Assignment of an absent key appends the entry. -/
theorem dInsertPy_of_not_mem {V : Type} {k : Str} (v : PyVal V)
    {es : List (Str × PyVal V)} (h : k ∉ es.map Prod.fst) :
    dInsertPy k v es = es ++ [(k, v)] := by
  induction es with
  | nil => rfl
  | cons hd rest ih =>
    obtain ⟨k2, v2⟩ := hd
    rw [List.map_cons, List.mem_cons] at h
    push_neg at h
    have h2 : k2 ≠ k := fun hh => h.1 hh.symm
    simp [dInsertPy, h2, ih h.2]

/-- The export of a well-formed tree is a well-formed Python value. -/
theorem asdictV_ND {V : Type} (t : RadixNode (PyVal V)) :
    treeND t = true → pyValND (asdictV t) = true := by
  induction t using nodeInd with
  | h val cs ih =>
    intro hnd
    rw [treeND.eq_def, Bool.and_eq_true_iff] at hnd
    obtain ⟨hab, hcs⟩ := hnd
    rw [Bool.and_eq_true_iff] at hab
    obtain ⟨hval, hkeys⟩ := hab
    have hknd : (cs.map Prod.fst).Nodup := of_decide_eq_true hkeys
    have hndA : pyValNDCs (asdictVCs cs) = true := by
      apply pyValNDCs_of_forall
      intro e he
      obtain ⟨ch, hch, hc2⟩ := mem_asdictVCs he
      rw [hc2]
      exact ih (e.1, ch) hch (treeNDCs_mem hcs hch)
    have hkA : ((asdictVCs cs).map Prod.fst).Nodup := by
      rw [map_fst_asdictVCs]; exact hknd
    rw [asdictV, pyValND, Bool.and_eq_true_iff]
    cases val with
    | none => exact ⟨by simpa [appendValue, map_fst_asdictVCs] using hkeys, by
        simpa [appendValue] using hndA⟩
    | some pv =>
      constructor
      · rw [appendValue]
        rw [map_fst_dInsertPy]
        by_cases hres : reservedKey ∈ (asdictVCs cs).map Prod.fst
        · simp [hres, hkA]
        · simp [hres, List.nodup_append, hkA]
      · rw [appendValue]
        exact pyValNDCs_dInsertPy hndA hval

/-- Round trip under Python equality: re-importing the value-carrying
export of any well-formed tree and exporting again yields a dictionary ==
to the original export. -/
theorem asdict_fromDict_roundtrip {V : Type} [DecidableEq V] (t : RadixNode (PyVal V)) :
    treeND t = true → pyEqV (asdictV (fromDict (asdictV t))) (asdictV t) = true := by
  induction t using nodeInd with
  | h val cs ih =>
    intro hnd
    rw [treeND.eq_def, Bool.and_eq_true_iff] at hnd
    obtain ⟨hab, hcs⟩ := hnd
    rw [Bool.and_eq_true_iff] at hab
    obtain ⟨hval, hkeys⟩ := hab
    have hknd : (cs.map Prod.fst).Nodup := of_decide_eq_true hkeys
    have hkA : ((asdictVCs cs).map Prod.fst).Nodup := by
      rw [map_fst_asdictVCs]; exact hknd
    -- the exported entry list and its derived pieces
    rw [asdictV]
    set A := asdictVCs cs with hA
    set E := appendValue val A with hE
    set W := pyLookup reservedKey E with hW
    have hfd : fromDict (.dict E) = .mk W (fromDictCs E) := rfl
    set F := E.filter (fun e => !(e.1 == reservedKey)) with hF
    have hM : asdictVCs (fromDictCs E)
        = F.map (fun e => (e.1, asdictV (fromDict e.2))) := by
      rw [fromDictCs_eq, asdictVCs_eq_map, List.map_map]
      rfl
    set M := F.map (fun e => (e.1, asdictV (fromDict e.2))) with hMdef
    -- E has pairwise distinct keys
    have hndE : (E.map Prod.fst).Nodup := by
      rw [hE]
      cases val with
      | none => simpa [appendValue, hA, map_fst_asdictVCs] using hknd
      | some pv =>
        rw [appendValue, map_fst_dInsertPy]
        by_cases hres : reservedKey ∈ A.map Prod.fst
        · simp [hres, hkA]
        · simp [hres, List.nodup_append, hkA]
    -- keys of F avoid the reserved key
    have hFres : reservedKey ∉ F.map Prod.fst := by
      intro hmem
      obtain ⟨e, he, hee⟩ := List.mem_map.mp hmem
      have := List.of_mem_filter he
      rw [hee] at this
      simp at this
    have hMkeys : M.map Prod.fst = F.map Prod.fst := by
      rw [hMdef, List.map_map]
      rfl
    have hMres : reservedKey ∉ M.map Prod.fst := by
      rw [hMkeys]
      exact hFres
    -- every non-reserved exported entry is a serialized child
    have hFchild : ∀ e ∈ F, ∃ ch, (e.1, ch) ∈ cs ∧ e.2 = asdictV ch := by
      intro e he
      have heE : e ∈ E := List.mem_of_mem_filter he
      have heA : e ∈ A := by
        rw [hE] at heE
        cases val with
        | none => simpa [appendValue] using heE
        | some pv =>
          rw [appendValue] at heE
          have hne : e.1 ≠ reservedKey := by
            have := List.of_mem_filter he
            simpa using this
          by_cases hres : reservedKey ∈ A.map Prod.fst
          · -- update in place: non-reserved entries unchanged
            have : e ∈ (dInsertPy reservedKey pv A).filter (fun x => !(x.1 == reservedKey)) := by
              apply List.mem_filter.mpr
              exact ⟨heE, by simpa using hne⟩
            rw [filter_dInsertPy] at this
            exact List.mem_of_mem_filter this
          · rw [dInsertPy_of_not_mem pv hres] at heE
            rcases List.mem_append.mp heE with h1 | h1
            · exact h1
            · simp at h1
              rw [h1] at hne
              exact absurd rfl hne
      exact mem_asdictVCs heA
    -- lookups of non-reserved exported entries succeed in E
    have hFlook : ∀ e ∈ F, pyLookup e.1 E = some e.2 := by
      intro e he
      obtain ⟨k, d⟩ := e
      exact pyLookup_of_mem_nodup hndE (List.mem_of_mem_filter he)
    -- each non-reserved entry of the re-export matches by induction
    have hMgood : ∀ e ∈ M, ∃ d2, pyLookup e.1 E = some d2 ∧ pyEqV e.2 d2 = true := by
      intro e he
      rw [hMdef] at he
      obtain ⟨x, hx, hxe⟩ := List.mem_map.mp he
      obtain ⟨ch, hch, hc2⟩ := hFchild x hx
      subst hxe
      refine ⟨x.2, hFlook x hx, ?_⟩
      show pyEqV (asdictV (fromDict x.2)) x.2 = true
      rw [show x.2 = asdictV ch from hc2]
      exact ih (x.1, ch) hch (treeNDCs_mem hcs hch)
    -- the reserved entry of the re-export matches by reflexivity
    have hWnd : ∀ w, W = some w → pyValND w = true := by
      intro w hw
      rw [hW, hE] at hw
      cases val with
      | none =>
        rw [appendValue] at hw
        obtain ⟨ch, hch, hc2⟩ := mem_asdictVCs (pyLookup_mem _ _ _ hw)
        rw [show w = asdictV ch from hc2]
        exact asdictV_ND ch (treeNDCs_mem hcs hch)
      | some pv =>
        rw [appendValue, pyLookup_dInsertPy_self] at hw
        cases hw
        exact hval
    -- now the two directions of the case split on W
    rw [hfd, asdictV, hM]
    cases hWcase : W with
    | none =>
      -- no reserved entry: the export was exactly the serialized children
      have hvalnone : val = none := by
        cases val with
        | none => rfl
        | some pv =>
          rw [hW, hE, appendValue, pyLookup_dInsertPy_self] at hWcase
          cases hWcase
      have hEA : E = A := by rw [hE, hvalnone, appendValue]
      have hresE : reservedKey ∉ E.map Prod.fst := by
        rw [← pyLookup_eq_none_iff]
        rw [← hW]; exact hWcase
      have hFE : F = E := by
        rw [hF]
        exact filter_ne_eq_self hresE
      rw [appendValue, pyEqV, Bool.and_eq_true_iff]
      constructor
      · rw [hMdef, hFE]
        simp
      · exact pyEqVEntries_of_forall hMgood
    | some w =>
      -- a reserved entry: the re-export appends it after the children
      have hres2 : reservedKey ∈ E.map Prod.fst := by
        by_contra hcon
        rw [← pyLookup_eq_none_iff] at hcon
        rw [← hW] at hcon
        rw [hWcase] at hcon
        cases hcon
      rw [appendValue, dInsertPy_of_not_mem w hMres, pyEqV, Bool.and_eq_true_iff]
      constructor
      · -- lengths agree
        have hlen1 : F.length + 1 = E.length := by
          rw [hF]
          exact length_filter_ne_of_nodup hndE hres2
        have : M.length = F.length := by rw [hMdef]; simp
        simp [this]
        omega
      · apply pyEqVEntries_of_forall
        intro e he
        rcases List.mem_append.mp he with h1 | h1
        · exact hMgood e h1
        · simp at h1
          rw [h1]
          refine ⟨w, ?_, pyEqV_refl w (hWnd w hWcase)⟩
          rw [← hW]
          exact hWcase

/-- A reserved-free children dict has reserved-free keys and children. -/
theorem noReservedCs_spec {V : Type} {cs : List (Str × RadixNode V)}
    (h : noReservedPrefixCs cs = true) :
    reservedKey ∉ cs.map Prod.fst ∧ ∀ e ∈ cs, noReservedPrefix e.2 = true := by
  induction cs with
  | nil => simp
  | cons hd rest ih =>
    obtain ⟨p, ch⟩ := hd
    rw [noReservedPrefixCs, Bool.and_eq_true_iff, Bool.and_eq_true_iff] at h
    obtain ⟨⟨hp, hch⟩, hrest⟩ := h
    obtain ⟨ih1, ih2⟩ := ih hrest
    constructor
    · rw [List.map_cons, List.mem_cons]
      push_neg
      refine ⟨?_, ih1⟩
      intro hh
      rw [hh] at hp
      simp at hp
    · intro e he
      rcases List.mem_cons.mp he with h1 | h1
      · rw [h1]; exact hch
      · exact ih2 e h1

/-- Re-importing the export of a reserved-free tree recovers the value. -/
theorem pyLookup_appendValue {V : Type} (val : Option (PyVal V))
    (cs : List (Str × RadixNode (PyVal V))) (h : reservedKey ∉ cs.map Prod.fst) :
    pyLookup reservedKey (appendValue val (asdictVCs cs)) = val := by
  cases val with
  | none =>
    rw [appendValue, pyLookup_eq_none_iff, map_fst_asdictVCs]
    exact h
  | some pv =>
    rw [appendValue, pyLookup_dInsertPy_self]

/-- Re-importing the export of a reserved-free tree recovers the children. -/
theorem fromDictCs_appendValue {V : Type} (val : Option (PyVal V))
    (cs : List (Str × RadixNode (PyVal V))) (h : reservedKey ∉ cs.map Prod.fst) :
    fromDictCs (appendValue val (asdictVCs cs))
      = cs.map (fun e => (e.1, fromDict (asdictV e.2))) := by
  have hres : reservedKey ∉ (asdictVCs cs).map Prod.fst := by
    rw [map_fst_asdictVCs]; exact h
  have hfilter : (asdictVCs cs).filter (fun e => !(e.1 == reservedKey)) = asdictVCs cs :=
    filter_ne_eq_self hres
  have hbase : fromDictCs (asdictVCs cs) = cs.map (fun e => (e.1, fromDict (asdictV e.2))) := by
    rw [fromDictCs_eq, hfilter, asdictVCs_eq_map, List.map_map]
    rfl
  cases val with
  | none => rw [appendValue]; exact hbase
  | some pv =>
    rw [appendValue, fromDictCs_eq, filter_dInsertPy, hfilter, asdictVCs_eq_map,
      List.map_map]
    rfl

/-- The key lists of a mapped children dict under re-import. -/
theorem nodeKeysCs_fromDict {V : Type} (cs : List (Str × RadixNode (PyVal V)))
    (h : ∀ e ∈ cs, ∀ acc, nodeKeys acc (fromDict (asdictV e.2)) = nodeKeys acc e.2) :
    ∀ acc, nodeKeysCs acc (cs.map (fun e => (e.1, fromDict (asdictV e.2))))
      = nodeKeysCs acc cs := by
  induction cs with
  | nil => intro acc; rfl
  | cons hd rest ih =>
    intro acc
    obtain ⟨p, ch⟩ := hd
    rw [List.map_cons, nodeKeysCs, nodeKeysCs]
    rw [h (p, ch) (List.mem_cons_self ..) (acc ++ p)]
    rw [ih (fun e he => h e (List.mem_cons_of_mem _ he)) acc]

/-- Re-importing the export of a reserved-free tree reconstructs exactly the
original full keys, by concatenating nested prefixes. -/
theorem nodeKeys_fromDict {V : Type} (t : RadixNode (PyVal V)) :
    noReservedPrefix t = true →
      ∀ acc, nodeKeys acc (fromDict (asdictV t)) = nodeKeys acc t := by
  induction t using nodeInd with
  | h val cs ih =>
    intro hnr acc
    rw [noReservedPrefix] at hnr
    obtain ⟨hkeys, hch⟩ := noReservedCs_spec hnr
    have h1 : asdictV (RadixNode.mk val cs) = .dict (appendValue val (asdictVCs cs)) := rfl
    rw [h1]
    rw [fromDict]
    rw [pyLookup_appendValue val cs hkeys, fromDictCs_appendValue val cs hkeys]
    simp only [nodeKeys.eq_def]
    rw [nodeKeysCs_fromDict cs (fun e he acc2 => ih e he (hch e he) acc2) acc]

/-- C3: for every well-formed tree (children keys unique and values
well-formed Python objects, as in any Python run), re-importing the
value-carrying export and exporting again yields a dictionary equal under
Python == to the original export — in particular for the empty tree; the
export of a node holding a value carries it under the reserved key
"__value__"; and on reserved-free trees from_dict reconstructs exactly the
original full keys by concatenating nested prefixes and recovering
"__value__" entries as values. -/
theorem C3_dict_roundtrip :
    (∀ {V : Type} [DecidableEq V] (t : RadixNode (PyVal V)), treeND t = true →
        pyEqV (asdictV (fromDict (asdictV t))) (asdictV t) = true) ∧
    (∀ {V : Type} (val : Option (PyVal V)) (cs : List (Str × RadixNode (PyVal V)))
        (pv : PyVal V), val = some pv →
        pyLookup reservedKey (asdictV (RadixNode.mk val cs)).entries = some pv) ∧
    (∀ {V : Type} (t : RadixNode (PyVal V)), noReservedPrefix t = true →
        nodeKeys [] (fromDict (asdictV t)) = nodeKeys [] t) := by
  refine ⟨fun t => asdict_fromDict_roundtrip t, ?_, fun t h => nodeKeys_fromDict t h []⟩
  intro V val cs pv hval
  subst hval
  have h1 : asdictV (RadixNode.mk (some pv) cs)
      = .dict (dInsertPy reservedKey pv (asdictVCs cs)) := rfl
  rw [h1, PyVal.entries, pyLookup_dInsertPy_self]

/-- Witness for C3 at concrete inputs: the two-key tree of the C2
counterexample scenario with base values, and a one-node tree holding the
base value 7. -/
theorem C3_witness :
    pyEqV
      (asdictV (fromDict (asdictV
        (buildTree [("ab".toList, PyVal.base (1 : Nat)), ("a".toList, PyVal.base 2)]))))
      (asdictV (buildTree [("ab".toList, PyVal.base (1 : Nat)), ("a".toList, PyVal.base 2)]))
      = true ∧
    pyLookup reservedKey
      (asdictV (RadixNode.mk (some (PyVal.base (7 : Nat))) [])).entries
      = some (PyVal.base 7) ∧
    nodeKeys [] (fromDict (asdictV
        (buildTree [("ab".toList, PyVal.base (1 : Nat)), ("a".toList, PyVal.base 2)])))
      = nodeKeys [] (buildTree [("ab".toList, PyVal.base (1 : Nat)), ("a".toList, PyVal.base 2)]) := by
  refine ⟨C3_dict_roundtrip.1 _ (by rfl), C3_dict_roundtrip.2.1 _ [] _ rfl,
    C3_dict_roundtrip.2.2 _ (by rfl)⟩

/-- The longest common prefix with an empty left string is empty. -/
theorem lcp_nil_left (b : Str) : commonLongestPrefix [] b = [] := by
  cases b <;> rfl

/-- The longest common prefix with an empty right string is empty. -/
theorem lcp_nil_right (a : Str) : commonLongestPrefix a [] = [] := by
  cases a <;> rfl

/-- The longest common prefix is symmetric. -/
theorem lcp_comm (a b : Str) : commonLongestPrefix a b = commonLongestPrefix b a := by
  induction a generalizing b with
  | nil => rw [lcp_nil_left, lcp_nil_right]
  | cons x as ih =>
    cases b with
    | nil => rw [lcp_nil_left, lcp_nil_right]
    | cons y bs =>
      by_cases hxy : x = y
      · subst hxy
        rw [commonLongestPrefix, commonLongestPrefix, ih]
      · have hyx : y ≠ x := fun hh => hxy hh.symm
        rw [commonLongestPrefix, commonLongestPrefix]
        simp [hxy, hyx]

/-- The longest common prefix is empty exactly when the strings do not share
their first symbol. -/
theorem lcp_eq_nil_iff (a b : Str) :
    commonLongestPrefix a b = [] ↔ ¬ sharesHead a b := by
  cases a with
  | nil => simp [lcp_nil_left, sharesHead]
  | cons x as =>
    cases b with
    | nil => simp [lcp_nil_right, sharesHead]
    | cons y bs =>
      by_cases hxy : x = y
      · subst hxy
        simp [commonLongestPrefix, sharesHead]
      · simp [commonLongestPrefix, hxy, sharesHead]

/-- The longest common prefix is a prefix of the left string. -/
theorem lcp_prefix_left (a b : Str) : commonLongestPrefix a b <+: a := by
  induction a generalizing b with
  | nil => rw [lcp_nil_left]
  | cons x as ih =>
    cases b with
    | nil => rw [lcp_nil_right]; exact List.nil_prefix
    | cons y bs =>
      by_cases hxy : x = y
      · subst hxy
        rw [commonLongestPrefix]
        simp only [if_pos rfl]
        exact List.cons_prefix_cons.mpr ⟨rfl, ih bs⟩
      · rw [commonLongestPrefix]
        simp [hxy]

/-- The longest common prefix is a prefix of the right string. -/
theorem lcp_prefix_right (a b : Str) : commonLongestPrefix a b <+: b := by
  rw [lcp_comm]
  exact lcp_prefix_left b a

/-- Sharing the first symbol is symmetric. -/
theorem sharesHead_symm {a b : Str} (h : sharesHead a b) : sharesHead b a :=
  ⟨h.2.1, h.1, h.2.2.symm⟩

/-- Sharing the first symbol is transitive. -/
theorem sharesHead_trans {a b c : Str} (h1 : sharesHead a b) (h2 : sharesHead b c) :
    sharesHead a c :=
  ⟨h1.1, h2.2.1, h1.2.2.trans h2.2.2⟩

/-- A non-empty prefix shares its first symbol with the whole string. -/
theorem sharesHead_of_prefix {c a : Str} (h : c <+: a) (hc : c ≠ []) :
    sharesHead c a := by
  obtain ⟨t, rfl⟩ := h
  cases c with
  | nil => exact absurd rfl hc
  | cons x cs => exact ⟨hc, by simp, by simp⟩

/-- Beyond their longest common prefix, two strings do not share a first
symbol. -/
theorem lcp_drop_not_shares (a b : Str) :
    ¬ sharesHead (a.drop (commonLongestPrefix a b).length)
        (b.drop (commonLongestPrefix a b).length) := by
  induction a generalizing b with
  | nil =>
    rw [lcp_nil_left]
    intro h
    exact h.1 rfl
  | cons x as ih =>
    cases b with
    | nil =>
      rw [lcp_nil_right]
      intro h
      exact h.2.1 rfl
    | cons y bs =>
      by_cases hxy : x = y
      · subst hxy
        rw [commonLongestPrefix]
        simp only [if_pos rfl, List.length_cons, List.drop_succ_cons]
        exact ih bs
      · rw [commonLongestPrefix]
        simp only [if_neg hxy, List.length_nil, List.drop_zero]
        intro h
        have := h.2.2
        simp at this
        exact hxy this

/-- A proper prefix is strictly shorter. -/
theorem prefix_proper_lt {c a : Str} (h : c <+: a) (hne : c ≠ a) :
    c.length < a.length := by
  rcases Nat.eq_or_lt_of_le h.length_le with h1 | h1
  · exact absurd (List.IsPrefix.eq_of_length h h1) hne
  · exact h1

/-- Dropping fewer symbols than the length leaves a non-empty string. -/
theorem drop_ne_nil_of_lt {n : Nat} {a : Str} (h : n < a.length) :
    a.drop n ≠ [] := by
  intro hh
  rw [List.drop_eq_nil_iff] at hh
  omega

/-- Unfolding of the pairwise check at a cons cell. -/
theorem pairwiseLcpEmpty_cons {k : Str} {l : List Str} :
    pairwiseLcpEmpty (k :: l) = true ↔
      (∀ q ∈ l, commonLongestPrefix k q = []) ∧ pairwiseLcpEmpty l = true := by
  rw [pairwiseLcpEmpty, Bool.and_eq_true_iff, List.all_eq_true]
  constructor
  · intro h
    exact ⟨fun q hq => List.isEmpty_iff.mp (h.1 q hq), h.2⟩
  · intro h
    exact ⟨fun q hq => List.isEmpty_iff.mpr (h.1 q hq), h.2⟩

/-- The pairwise check over a list with one string appended. -/
theorem pairwiseLcpEmpty_append_singleton {l : List Str} {c : Str} :
    pairwiseLcpEmpty (l ++ [c]) = true ↔
      pairwiseLcpEmpty l = true ∧ ∀ q ∈ l, commonLongestPrefix q c = [] := by
  induction l with
  | nil => simp [pairwiseLcpEmpty]
  | cons k l ih =>
    rw [List.cons_append, pairwiseLcpEmpty_cons, pairwiseLcpEmpty_cons, ih]
    constructor
    · intro ⟨h1, h2, h3⟩
      refine ⟨⟨fun q hq => h1 q (by simp [hq]), h2⟩, ?_⟩
      intro q hq
      rcases List.mem_cons.mp hq with h4 | h4
      · subst h4
        exact h1 c (by simp)
      · exact h3 q h4
    · intro ⟨⟨h1, h2⟩, h3⟩
      refine ⟨?_, h2, fun q hq => h3 q (List.mem_cons_of_mem _ hq)⟩
      intro q hq
      rcases List.mem_append.mp hq with h4 | h4
      · exact h1 q h4
      · rw [List.mem_singleton] at h4
        subst h4
        exact h3 k (List.mem_cons_self ..)

/-- One-step unfolding of the children-dict insert. -/
theorem insertCs_cons {V : Type} (key p : Str) (v : V) (ch : RadixNode V)
    (rest : List (Str × RadixNode V)) :
    RadixNode.insertCs key v ((p, ch) :: rest) =
      if commonLongestPrefix key p = [] then (p, ch) :: RadixNode.insertCs key v rest
      else if p = key ∧ commonLongestPrefix key p = p then
        (p, .mk (some v) ch.children) :: rest
      else if commonLongestPrefix key p = p then
        (p, RadixNode.insert (key.drop (commonLongestPrefix key p).length) v ch) :: rest
      else rest ++ [(commonLongestPrefix key p,
        .mk none [(p.drop (commonLongestPrefix key p).length, ch),
                  (key.drop (commonLongestPrefix key p).length, .mk (some v) [])])] := rfl

/-- The compression check at a node, unfolded. -/
theorem allNodesCompressed_mk {V : Type} (val : Option V)
    (cs : List (Str × RadixNode V)) :
    allNodesCompressed (RadixNode.mk val cs)
      = (pairwiseLcpEmpty (cs.map Prod.fst) && allNodesCompressedCs cs) := rfl

/-- The compression check over appended children lists. -/
theorem allNodesCompressedCs_append {V : Type} (l1 l2 : List (Str × RadixNode V)) :
    allNodesCompressedCs (l1 ++ l2)
      = (allNodesCompressedCs l1 && allNodesCompressedCs l2) := by
  induction l1 with
  | nil => simp [allNodesCompressedCs]
  | cons hd rest ih =>
    obtain ⟨p, ch⟩ := hd
    rw [List.cons_append, allNodesCompressedCs, allNodesCompressedCs, ih,
      Bool.and_assoc]

/-- Inserting a non-empty key into a children dict whose subtrees insert
compressedly keeps the dict pairwise prefix-free and all subtrees
compressed, and every new key either was present or shares its first
symbol with the inserted key. -/
theorem insertCs_ok {V : Type} (key : Str) (v : V) (cs : List (Str × RadixNode V))
    (hkey : key ≠ [])
    (hins : ∀ e ∈ cs, ∀ (k2 : Str) (v2 : V), k2 ≠ [] → allNodesCompressed e.2 = true →
        allNodesCompressed (RadixNode.insert k2 v2 e.2) = true)
    (hpw : pairwiseLcpEmpty (cs.map Prod.fst) = true)
    (hcs : allNodesCompressedCs cs = true) :
    pairwiseLcpEmpty ((RadixNode.insertCs key v cs).map Prod.fst) = true ∧
    allNodesCompressedCs (RadixNode.insertCs key v cs) = true ∧
    (∀ q ∈ (RadixNode.insertCs key v cs).map Prod.fst,
        q ∈ cs.map Prod.fst ∨ sharesHead q key) := by
  induction cs with
  | nil =>
    refine ⟨rfl, rfl, ?_⟩
    intro q hq
    have hq2 : q = key := by simpa [RadixNode.insertCs] using hq
    subst hq2
    exact Or.inr ⟨hkey, hkey, rfl⟩
  | cons hd rest ih =>
    obtain ⟨p, ch⟩ := hd
    rw [List.map_cons, pairwiseLcpEmpty_cons] at hpw
    obtain ⟨hpq, hpwrest⟩ := hpw
    rw [allNodesCompressedCs, Bool.and_eq_true_iff] at hcs
    obtain ⟨hch, hcrest⟩ := hcs
    have hinsrest : ∀ e ∈ rest, ∀ (k2 : Str) (v2 : V), k2 ≠ [] →
        allNodesCompressed e.2 = true →
        allNodesCompressed (RadixNode.insert k2 v2 e.2) = true :=
      fun e he => hins e (List.mem_cons_of_mem _ he)
    rw [insertCs_cons]
    by_cases hc : commonLongestPrefix key p = []
    · -- this child does not match: keep scanning
      rw [if_pos hc]
      obtain ⟨ih1, ih2, ih3⟩ := ih hinsrest hpwrest hcrest
      refine ⟨?_, ?_, ?_⟩
      · rw [List.map_cons, pairwiseLcpEmpty_cons]
        refine ⟨?_, ih1⟩
        intro q hq
        rcases ih3 q hq with h1 | h1
        · exact hpq q h1
        · rw [lcp_eq_nil_iff]
          intro hshare
          rw [lcp_eq_nil_iff] at hc
          exact hc (sharesHead_symm (sharesHead_trans hshare h1))
      · rw [allNodesCompressedCs, Bool.and_eq_true_iff]
        exact ⟨hch, ih2⟩
      · intro q hq
        rw [List.map_cons, List.mem_cons] at hq
        rcases hq with h1 | h1
        · exact Or.inl (by rw [List.map_cons, List.mem_cons]; exact Or.inl h1)
        · rcases ih3 q h1 with h2 | h2
          · exact Or.inl (by rw [List.map_cons, List.mem_cons]; exact Or.inr h2)
          · exact Or.inr h2
    · rw [if_neg hc]
      by_cases hex : p = key ∧ commonLongestPrefix key p = p
      · -- exact match: overwrite the child's value in place
        rw [if_pos hex]
        refine ⟨?_, ?_, ?_⟩
        · rw [List.map_cons, pairwiseLcpEmpty_cons]
          exact ⟨hpq, hpwrest⟩
        · rw [allNodesCompressedCs, Bool.and_eq_true_iff]
          refine ⟨?_, hcrest⟩
          cases ch with
          | mk vch csch => exact hch
        · intro q hq
          rw [List.map_cons, List.mem_cons] at hq
          rw [List.map_cons]
          rcases hq with h1 | h1
          · exact Or.inl (List.mem_cons.mpr (Or.inl h1))
          · exact Or.inl (List.mem_cons.mpr (Or.inr h1))
      · rw [if_neg hex]
        by_cases hcp : commonLongestPrefix key p = p
        · -- the key extends the child's prefix: recurse into the child
          rw [if_pos hcp]
          have hppre : p <+: key := hcp ▸ lcp_prefix_left key p
          have hpk : p ≠ key := fun h => hex ⟨h, hcp⟩
          have hlt : p.length < key.length := prefix_proper_lt hppre hpk
          have hk2 : key.drop (commonLongestPrefix key p).length ≠ [] := by
            rw [hcp]
            exact drop_ne_nil_of_lt hlt
          refine ⟨?_, ?_, ?_⟩
          · rw [List.map_cons, pairwiseLcpEmpty_cons]
            exact ⟨hpq, hpwrest⟩
          · rw [allNodesCompressedCs, Bool.and_eq_true_iff]
            exact ⟨hins (p, ch) (List.mem_cons_self ..) _ v hk2 hch, hcrest⟩
          · intro q hq
            rw [List.map_cons, List.mem_cons] at hq
            rw [List.map_cons]
            rcases hq with h1 | h1
            · exact Or.inl (List.mem_cons.mpr (Or.inl h1))
            · exact Or.inl (List.mem_cons.mpr (Or.inr h1))
        · -- split: intermediate node under the common prefix
          rw [if_neg hcp]
          have hsharecp : sharesHead (commonLongestPrefix key p) p :=
            sharesHead_of_prefix (lcp_prefix_right key p) hc
          have hshareck : sharesHead (commonLongestPrefix key p) key :=
            sharesHead_of_prefix (lcp_prefix_left key p) hc
          have hcppre : commonLongestPrefix key p <+: p := lcp_prefix_right key p
          have hlt : (commonLongestPrefix key p).length < p.length :=
            prefix_proper_lt hcppre hcp
          have hpdrop : p.drop (commonLongestPrefix key p).length ≠ [] :=
            drop_ne_nil_of_lt hlt
          refine ⟨?_, ?_, ?_⟩
          · simp only [List.map_append, List.map_cons, List.map_nil]
            rw [pairwiseLcpEmpty_append_singleton]
            refine ⟨hpwrest, ?_⟩
            intro q hq
            rw [lcp_eq_nil_iff]
            intro hshare
            have h2 : sharesHead p q :=
              sharesHead_symm (sharesHead_trans hshare hsharecp)
            have h3 := hpq q hq
            rw [lcp_eq_nil_iff] at h3
            exact h3 h2
          · rw [allNodesCompressedCs_append, Bool.and_eq_true_iff]
            refine ⟨hcrest, ?_⟩
            simp only [allNodesCompressedCs, allNodesCompressed_mk, List.map_cons,
              List.map_nil, Bool.and_true, Bool.and_eq_true]
            have hlcp2 : commonLongestPrefix (p.drop (commonLongestPrefix key p).length)
                (key.drop (commonLongestPrefix key p).length) = [] := by
              rw [lcp_eq_nil_iff]
              intro hshare
              exact lcp_drop_not_shares key p (sharesHead_symm hshare)
            simp [hch, pairwiseLcpEmpty, hlcp2]
          · intro q hq
            rw [List.map_append, List.mem_append] at hq
            rcases hq with h1 | h1
            · exact Or.inl (by rw [List.map_cons, List.mem_cons]; exact Or.inr h1)
            · have hq2 : q = commonLongestPrefix key p := by simpa using h1
              subst hq2
              exact Or.inr hshareck

/-- RadixNode.insert preserves the compression invariant for non-empty
keys. -/
theorem insert_compressed {V : Type} (n : RadixNode V) :
    ∀ (key : Str) (v : V), key ≠ [] → allNodesCompressed n = true →
      allNodesCompressed (RadixNode.insert key v n) = true := by
  induction n using nodeInd with
  | h val cs ih =>
    intro key v hk hcomp
    rw [allNodesCompressed_mk, Bool.and_eq_true_iff] at hcomp
    have hok := insertCs_ok key v cs hk
      (fun e he k2 v2 hk2 hc2 => ih e he k2 v2 hk2 hc2) hcomp.1 hcomp.2
    rw [show RadixNode.insert key v (RadixNode.mk val cs)
        = RadixNode.mk val (RadixNode.insertCs key v cs) from rfl]
    rw [allNodesCompressed_mk, Bool.and_eq_true_iff]
    exact ⟨hok.1, hok.2.1⟩

/-- Folding successful inserts preserves the compression invariant. -/
theorem build_preserves_compressed {V : Type} (ops : List (Str × V)) :
    ∀ t, (∀ p ∈ ops, p.1 ≠ []) → allNodesCompressed t = true →
      allNodesCompressed (ops.foldl (fun a p => RadixNode.insert p.1 p.2 a) t) = true := by
  induction ops with
  | nil => intro t _ ht; exact ht
  | cons hd rest ih =>
    intro t h ht
    rw [List.foldl_cons]
    exact ih _ (fun p hp => h p (List.mem_cons_of_mem _ hp))
      (insert_compressed t hd.1 hd.2 (h hd (List.mem_cons_self ..)) ht)

/-- C1: in every tree built by a finite sequence of successful inserts from
the empty tree, no two distinct children of any node have prefixes sharing
a non-empty common leading symbol run. -/
theorem C1_compression_invariant {V : Type} (ops : List (Str × V))
    (h : ∀ p ∈ ops, p.1 ≠ []) : allNodesCompressed (buildTree ops) = true :=
  build_preserves_compressed ops (emptyTree V) h rfl

/-- Witness for C1 on the three-key scenario tree. -/
theorem C1_witness :
    allNodesCompressed
      (buildTree [("computer".toList, 1), ("compute".toList, 2), ("computing".toList, 3)])
      = true :=
  C1_compression_invariant _ (by decide)

/-- The empty-prefix check over appended children lists. -/
theorem emptyPrefixValuedLeavesCs_append {V : Type} (l1 l2 : List (Str × RadixNode V)) :
    emptyPrefixValuedLeavesCs (l1 ++ l2)
      = (emptyPrefixValuedLeavesCs l1 && emptyPrefixValuedLeavesCs l2) := by
  induction l1 with
  | nil => simp [emptyPrefixValuedLeavesCs]
  | cons hd rest ih =>
    obtain ⟨p, ch⟩ := hd
    rw [List.cons_append, emptyPrefixValuedLeavesCs, emptyPrefixValuedLeavesCs, ih]
    simp [Bool.and_assoc]

/-- Inserting a non-empty key keeps every empty-prefix node a value-holding
leaf (children-dict level). -/
theorem insertCs_emptyLeaves {V : Type} (key : Str) (v : V)
    (cs : List (Str × RadixNode V)) (hkey : key ≠ [])
    (hins : ∀ e ∈ cs, ∀ (k2 : Str) (v2 : V), k2 ≠ [] →
        emptyPrefixValuedLeaves e.2 = true →
        emptyPrefixValuedLeaves (RadixNode.insert k2 v2 e.2) = true)
    (hcs : emptyPrefixValuedLeavesCs cs = true) :
    emptyPrefixValuedLeavesCs (RadixNode.insertCs key v cs) = true := by
  induction cs with
  | nil =>
    rw [show RadixNode.insertCs key v ([] : List (Str × RadixNode V))
        = [(key, .mk (some v) [])] from rfl]
    rw [emptyPrefixValuedLeavesCs]
    simp [okEmptyEntry, RadixNode.children, RadixNode.value, emptyPrefixValuedLeaves,
      emptyPrefixValuedLeavesCs]
  | cons hd rest ih =>
    obtain ⟨p, ch⟩ := hd
    rw [emptyPrefixValuedLeavesCs, Bool.and_eq_true_iff, Bool.and_eq_true_iff] at hcs
    obtain ⟨⟨hok, hch⟩, hcrest⟩ := hcs
    have hinsrest : ∀ e ∈ rest, ∀ (k2 : Str) (v2 : V), k2 ≠ [] →
        emptyPrefixValuedLeaves e.2 = true →
        emptyPrefixValuedLeaves (RadixNode.insert k2 v2 e.2) = true :=
      fun e he => hins e (List.mem_cons_of_mem _ he)
    rw [insertCs_cons]
    by_cases hc : commonLongestPrefix key p = []
    · rw [if_pos hc, emptyPrefixValuedLeavesCs]
      simp only [Bool.and_eq_true]
      exact ⟨⟨hok, hch⟩, ih hinsrest hcrest⟩
    · rw [if_neg hc]
      have hpne : p ≠ [] := by
        intro hh
        subst hh
        rw [lcp_nil_right] at hc
        exact hc rfl
      by_cases hex : p = key ∧ commonLongestPrefix key p = p
      · rw [if_pos hex, emptyPrefixValuedLeavesCs]
        simp only [Bool.and_eq_true]
        refine ⟨⟨?_, ?_⟩, hcrest⟩
        · simp [okEmptyEntry, List.isEmpty_iff, hpne]
        · cases ch with
          | mk vch csch => exact hch
      · rw [if_neg hex]
        by_cases hcp : commonLongestPrefix key p = p
        · rw [if_pos hcp]
          have hppre : p <+: key := hcp ▸ lcp_prefix_left key p
          have hpk : p ≠ key := fun h => hex ⟨h, hcp⟩
          have hk2 : key.drop (commonLongestPrefix key p).length ≠ [] := by
            rw [hcp]
            exact drop_ne_nil_of_lt (prefix_proper_lt hppre hpk)
          rw [emptyPrefixValuedLeavesCs]
          simp only [Bool.and_eq_true]
          refine ⟨⟨?_, ?_⟩, hcrest⟩
          · simp [okEmptyEntry, List.isEmpty_iff, hpne]
          · exact hins (p, ch) (List.mem_cons_self ..) _ v hk2 hch
        · rw [if_neg hcp]
          rw [emptyPrefixValuedLeavesCs_append, Bool.and_eq_true_iff]
          refine ⟨hcrest, ?_⟩
          have hcne : commonLongestPrefix key p ≠ [] := hc
          have hpdrop : p.drop (commonLongestPrefix key p).length ≠ [] :=
            drop_ne_nil_of_lt (prefix_proper_lt (lcp_prefix_right key p) hcp)
          rw [emptyPrefixValuedLeavesCs, Bool.and_eq_true_iff, Bool.and_eq_true_iff]
          refine ⟨⟨?_, ?_⟩, rfl⟩
          · simp [okEmptyEntry, List.isEmpty_iff, hcne]
          · simp [emptyPrefixValuedLeaves, emptyPrefixValuedLeavesCs, okEmptyEntry,
              List.isEmpty_iff, hpdrop, hch, RadixNode.children, RadixNode.value]

/-- RadixNode.insert preserves the empty-prefix-leaf property for non-empty
keys. -/
theorem insert_emptyLeaves {V : Type} (n : RadixNode V) :
    ∀ (key : Str) (v : V), key ≠ [] → emptyPrefixValuedLeaves n = true →
      emptyPrefixValuedLeaves (RadixNode.insert key v n) = true := by
  induction n using nodeInd with
  | h val cs ih =>
    intro key v hk hprop
    rw [show RadixNode.insert key v (RadixNode.mk val cs)
        = RadixNode.mk val (RadixNode.insertCs key v cs) from rfl]
    rw [show emptyPrefixValuedLeaves (RadixNode.mk val (RadixNode.insertCs key v cs))
        = emptyPrefixValuedLeavesCs (RadixNode.insertCs key v cs) from rfl]
    rw [show emptyPrefixValuedLeaves (RadixNode.mk val cs)
        = emptyPrefixValuedLeavesCs cs from rfl] at hprop
    exact insertCs_emptyLeaves key v cs hk
      (fun e he k2 v2 hk2 hp2 => ih e he k2 v2 hk2 hp2) hprop

/-- C9 amended: after every finite sequence of successful inserts into an
initially empty tree, every non-root node stored under an empty prefix is
a value-holding leaf (such nodes do arise, in the split case where the
inserted key is a strict prefix of an existing child's prefix, so the
original claim that only the root has an empty prefix fails). -/
theorem C9_amended_empty_prefix_leaves {V : Type} (ops : List (Str × V))
    (h : ∀ p ∈ ops, p.1 ≠ []) :
    emptyPrefixValuedLeaves (buildTree ops) = true := by
  suffices hgen : ∀ t, emptyPrefixValuedLeaves t = true →
      emptyPrefixValuedLeaves
        (ops.foldl (fun a p => RadixNode.insert p.1 p.2 a) t) = true by
    exact hgen (emptyTree V) rfl
  induction ops with
  | nil => intro t ht; exact ht
  | cons hd rest ih =>
    intro t ht
    rw [List.foldl_cons]
    exact ih (fun p hp => h p (List.mem_cons_of_mem _ hp)) _
      (insert_emptyLeaves t hd.1 hd.2 (h hd (List.mem_cons_self ..)) ht)

/-- Witness for the amended C9 on the computer/compute tree, which contains
an empty-prefix node. -/
theorem C9_amended_witness :
    emptyPrefixValuedLeaves
      (buildTree [("computer".toList, 1), ("compute".toList, 2)]) = true :=
  C9_amended_empty_prefix_leaves _ (by decide)

/-- canonizeCs is the children map under canonize. -/
theorem canonizeCs_eq_map {V : Type} (cs : List (Str × RadixNode V)) :
    canonizeCs cs = cs.map (fun e => (e.1, canonize e.2)) := by
  induction cs with
  | nil => rfl
  | cons hd rest ih =>
    obtain ⟨p, ch⟩ := hd
    rw [canonizeCs, ih, List.map_cons]

/-- keyvalsCs distributes over appended children lists. -/
theorem keyvalsCs_append {V : Type} (l1 l2 : List (Str × RadixNode V)) :
    keyvalsCs (l1 ++ l2) = keyvalsCs l1 ++ keyvalsCs l2 := by
  induction l1 with
  | nil => rfl
  | cons hd rest ih =>
    obtain ⟨p, ch⟩ := hd
    rw [List.cons_append, keyvalsCs, keyvalsCs, ih, List.append_assoc]

/-- Compression of a children list gives compression of each child. -/
theorem allNodesCompressedCs_mem {V : Type} {cs : List (Str × RadixNode V)}
    (h : allNodesCompressedCs cs = true) {e : Str × RadixNode V} (he : e ∈ cs) :
    allNodesCompressed e.2 = true := by
  induction cs with
  | nil => simp at he
  | cons hd rest ih =>
    obtain ⟨p, ch⟩ := hd
    rw [allNodesCompressedCs, Bool.and_eq_true_iff] at h
    rcases List.mem_cons.mp he with h1 | h1
    · rw [h1]; exact h.1
    · exact ih h.2 h1

/-- Non-empty prefixes below a children list give them for each child, and
each child prefix is non-empty. -/
theorem nonRootPrefixesNonemptyCs_mem {V : Type} {cs : List (Str × RadixNode V)}
    (h : nonRootPrefixesNonemptyCs cs = true) {e : Str × RadixNode V} (he : e ∈ cs) :
    e.1 ≠ [] ∧ nonRootPrefixesNonempty e.2 = true := by
  induction cs with
  | nil => simp at he
  | cons hd rest ih =>
    obtain ⟨p, ch⟩ := hd
    rw [nonRootPrefixesNonemptyCs, Bool.and_eq_true_iff, Bool.and_eq_true_iff] at h
    rcases List.mem_cons.mp he with h1 | h1
    · rw [h1]
      refine ⟨?_, h.1.2⟩
      have := h.1.1
      simp [List.isEmpty_iff] at this
      exact this
    · exact ih h.2 h1

/-- Shape discipline of a children list gives it for each child. -/
theorem goodShapeCs_mem {V : Type} {cs : List (Str × RadixNode V)}
    (h : goodShapeCs cs = true) {e : Str × RadixNode V} (he : e ∈ cs) :
    goodShape e.2 = true := by
  induction cs with
  | nil => simp at he
  | cons hd rest ih =>
    obtain ⟨p, ch⟩ := hd
    rw [goodShapeCs, Bool.and_eq_true_iff] at h
    rcases List.mem_cons.mp he with h1 | h1
    · rw [h1]; exact h.1
    · exact ih h.2 h1

/-- Shape discipline at a valueless node: at least two children, all
disciplined. -/
theorem goodShape_none_iff {V : Type} (cs : List (Str × RadixNode V)) :
    goodShape (RadixNode.mk none cs) = true ↔ 2 ≤ cs.length ∧ goodShapeCs cs = true := by
  match cs with
  | [] => simp [goodShape]
  | [e] => simp [goodShape]
  | e1 :: e2 :: rest =>
    rw [goodShape]
    constructor
    · intro h
      refine ⟨?_, h⟩
      simp only [List.length_cons]
      omega
    · intro h
      exact h.2

/-- Shape discipline at a valued node: it is a leaf. -/
theorem goodShape_some_iff {V : Type} (v : V) (cs : List (Str × RadixNode V)) :
    goodShape (RadixNode.mk (some v) cs) = true ↔ cs = [] := by
  match cs with
  | [] => simp [goodShape]
  | e :: rest => simp [goodShape]

/-- A disciplined subtree stores at least one binding. -/
theorem keyvals_ne_nil {V : Type} (n : RadixNode V) :
    goodShape n = true → keyvals n ≠ [] := by
  induction n using nodeInd with
  | h val cs ih =>
    intro hgs
    cases val with
    | some v =>
      rw [keyvals]
      simp
    | none =>
      rw [goodShape_none_iff] at hgs
      match cs, hgs with
      | (p, ch) :: rest, ⟨hlen, hcs⟩ =>
        rw [keyvals, keyvalsCs]
        rw [goodShapeCs, Bool.and_eq_true_iff] at hcs
        have hne := ih (p, ch) (List.mem_cons_self ..) hcs.1
        simp only [List.nil_append]
        intro hcontra
        cases hkv : keyvals ch with
        | nil => exact hne hkv
        | cons a l =>
          rw [hkv] at hcontra
          simp at hcontra

/-- A prefix plus the remainder reassembles the string. -/
theorem prefix_append_drop {p k : Str} (h : p <+: k) :
    p ++ k.drop p.length = k := by
  obtain ⟨t, rfl⟩ := h
  simp

/-- Keys in a child's contribution all start with the child's first
symbol. -/
theorem head?_of_mem_contrib {V : Type} {p : Str} (hp : p ≠ [])
    {ch : RadixNode V} {e : Str × V}
    (he : e ∈ (keyvals ch).map (fun x => (p ++ x.1, x.2))) :
    e.1.head? = p.head? := by
  obtain ⟨x, _, hxe⟩ := List.mem_map.mp he
  rw [← hxe]
  exact List.head?_append_of_ne_nil p hp

/-- Prefixing with a fixed string is injective on bindings. -/
theorem map_prefix_perm_cancel {V : Type} (p : Str) {l1 l2 : List (Str × V)}
    (h : (l1.map (fun e => (p ++ e.1, e.2))).Perm (l2.map (fun e => (p ++ e.1, e.2)))) :
    l1.Perm l2 := by
  have hinj : Function.Injective (fun (e : Str × V) => (p ++ e.1, e.2)) := by
    intro a b hab
    rw [Prod.mk.injEq] at hab
    obtain ⟨a1, a2⟩ := a
    obtain ⟨b1, b2⟩ := b
    simp only [] at hab
    have h1 := List.append_cancel_left hab.1
    rw [Prod.mk.injEq]
    exact ⟨h1, hab.2⟩
  rw [← Multiset.coe_eq_coe]
  apply Multiset.map_injective hinj
  rw [Multiset.map_coe, Multiset.map_coe]
  exact Multiset.coe_eq_coe.mpr h

/-- Every stored binding comes from some child, with its prefix split
off. -/
theorem mem_keyvalsCs {V : Type} {cs : List (Str × RadixNode V)} {e : Str × V}
    (he : e ∈ keyvalsCs cs) :
    ∃ pch ∈ cs, ∃ k, e.1 = pch.1 ++ k ∧ (k, e.2) ∈ keyvals pch.2 := by
  induction cs with
  | nil => simp [keyvalsCs] at he
  | cons hd rest ih =>
    obtain ⟨p, ch⟩ := hd
    rw [keyvalsCs, List.mem_append] at he
    rcases he with h1 | h1
    · obtain ⟨x, hx, hxe⟩ := List.mem_map.mp h1
      refine ⟨(p, ch), List.mem_cons_self .., x.1, ?_, ?_⟩
      · rw [← hxe]
      · rw [← hxe]
        simpa using hx
    · obtain ⟨pch, hpch, k, hk1, hk2⟩ := ih h1
      exact ⟨pch, List.mem_cons_of_mem _ hpch, k, hk1, hk2⟩

/-- A string is its own longest common prefix. -/
theorem lcp_self (a : Str) : commonLongestPrefix a a = a := by
  induction a with
  | nil => rfl
  | cons x as ih => rw [commonLongestPrefix, if_pos rfl, ih]

/-- Non-empty strings with empty longest common prefix have different first
symbols. -/
theorem heads_ne_of_lcp_nil {a b : Str} (ha : a ≠ []) (hb : b ≠ [])
    (h : commonLongestPrefix a b = []) : a.head? ≠ b.head? := by
  rw [lcp_eq_nil_iff] at h
  intro hh
  exact h ⟨ha, hb, hh⟩

/-- Pairwise prefix-independent non-empty strings are pairwise distinct. -/
theorem nodup_of_pairwiseLcp {ks : List Str} (hpw : pairwiseLcpEmpty ks = true)
    (hne : ∀ k ∈ ks, k ≠ []) : ks.Nodup := by
  induction ks with
  | nil => exact List.nodup_nil
  | cons k rest ih =>
    rw [pairwiseLcpEmpty_cons] at hpw
    rw [List.nodup_cons]
    constructor
    · intro hmem
      have h1 := hpw.1 k hmem
      rw [lcp_self] at h1
      exact hne k (List.mem_cons_self ..) h1
    · exact ih hpw.2 (fun q hq => hne q (List.mem_cons_of_mem _ hq))

/-- Canonization keeps the children's keys. -/
theorem map_fst_canonizeCs {V : Type} (cs : List (Str × RadixNode V)) :
    (canonizeCs cs).map Prod.fst = cs.map Prod.fst := by
  rw [canonizeCs_eq_map, List.map_map]
  rfl

/-- Every canonical entry comes from a child. -/
theorem mem_canonizeCs {V : Type} {cs : List (Str × RadixNode V)}
    {e : Str × RadixNode V} (he : e ∈ canonizeCs cs) :
    ∃ ch, (e.1, ch) ∈ cs ∧ e.2 = canonize ch := by
  rw [canonizeCs_eq_map] at he
  obtain ⟨a, ha, hae⟩ := List.mem_map.mp he
  exact ⟨a.2, by rw [← hae]; exact ha, by rw [← hae]⟩

/-- Every child induces its canonical entry. -/
theorem mem_canonizeCs_intro {V : Type} {cs : List (Str × RadixNode V)}
    {p : Str} {ch : RadixNode V} (h : (p, ch) ∈ cs) :
    (p, canonize ch) ∈ canonizeCs cs := by
  rw [canonizeCs_eq_map]
  exact List.mem_map.mpr ⟨(p, ch), h, rfl⟩

/-- A binding of a child appears among the node's bindings, prefixed. -/
theorem mem_keyvalsCs_intro {V : Type} {cs : List (Str × RadixNode V)}
    {p : Str} {ch : RadixNode V} (h : (p, ch) ∈ cs) {k : Str} {w : V}
    (hk : (k, w) ∈ keyvals ch) :
    (p ++ k, w) ∈ keyvalsCs cs := by
  induction cs with
  | nil => simp at h
  | cons hd rest ih =>
    obtain ⟨q, d⟩ := hd
    rw [keyvalsCs, List.mem_append]
    rcases List.mem_cons.mp h with h1 | h1
    · rw [Prod.mk.injEq] at h1
      obtain ⟨h1a, h1b⟩ := h1
      subst h1a
      subst h1b
      exact Or.inl (List.mem_map.mpr ⟨(k, w), hk, rfl⟩)
    · exact Or.inr (ih h1)

/-- In a compressed children dict with non-empty prefixes, filtering the
node's bindings by a child's first symbol yields exactly that child's
contribution. -/
theorem filter_keyvalsCs_head {V : Type} {cs : List (Str × RadixNode V)}
    (hpw : pairwiseLcpEmpty (cs.map Prod.fst) = true)
    (hne : ∀ e ∈ cs, e.1 ≠ ([] : Str))
    {p : Str} {ch : RadixNode V} (hmem : (p, ch) ∈ cs) :
    (keyvalsCs cs).filter (fun e => e.1.head? == p.head?)
      = (keyvals ch).map (fun e => (p ++ e.1, e.2)) := by
  induction cs with
  | nil => simp at hmem
  | cons hd rest ih =>
    obtain ⟨q, d⟩ := hd
    rw [List.map_cons, pairwiseLcpEmpty_cons] at hpw
    obtain ⟨hq1, hpwrest⟩ := hpw
    have hqne : q ≠ [] := hne (q, d) (List.mem_cons_self ..)
    have hnerest : ∀ e ∈ rest, e.1 ≠ ([] : Str) :=
      fun e he => hne e (List.mem_cons_of_mem _ he)
    rw [keyvalsCs, List.filter_append]
    rcases List.mem_cons.mp hmem with h1 | h1
    · rw [Prod.mk.injEq] at h1
      obtain ⟨h1a, h1b⟩ := h1
      subst h1a
      subst h1b
      have hmap : (List.map (fun e => (p ++ e.1, e.2)) (keyvals ch)).filter
          (fun e => e.1.head? == p.head?) = List.map (fun e => (p ++ e.1, e.2)) (keyvals ch) := by
        apply List.filter_eq_self.mpr
        intro e he
        have := head?_of_mem_contrib hqne he
        simp [this]
      have hrest : (keyvalsCs rest).filter (fun e => e.1.head? == p.head?) = [] := by
        rw [List.filter_eq_nil_iff]
        intro e he
        obtain ⟨pch, hpch, k, hk1, _⟩ := mem_keyvalsCs he
        have hpchne : pch.1 ≠ [] := hnerest pch hpch
        have hlcp : commonLongestPrefix p pch.1 = [] :=
          hq1 pch.1 (List.mem_map_of_mem Prod.fst hpch)
        have hheads : p.head? ≠ pch.1.head? := heads_ne_of_lcp_nil hqne hpchne hlcp
        have he1 : e.1.head? = pch.1.head? := by
          rw [hk1]
          exact List.head?_append_of_ne_nil pch.1 hpchne
        simp [he1]
        intro hcontra
        exact hheads hcontra.symm
      rw [hmap, hrest, List.append_nil]
    · have hphead : p.head? ≠ q.head? := by
        have hpne : p ≠ [] := hnerest (p, ch) h1
        have hlcp : commonLongestPrefix q p = [] :=
          hq1 p (List.mem_map_of_mem Prod.fst h1)
        exact fun hh => heads_ne_of_lcp_nil hqne hpne hlcp hh.symm
      have hmap : (List.map (fun e => (q ++ e.1, e.2)) (keyvals d)).filter
          (fun e => e.1.head? == p.head?) = [] := by
        rw [List.filter_eq_nil_iff]
        intro e he
        have := head?_of_mem_contrib hqne he
        simp [this]
        intro hcontra
        exact hphead hcontra.symm
      rw [hmap, List.nil_append]
      exact ih hpwrest hnerest h1

/-- A branching node with at least two compressed children stores two
bindings with different first symbols. -/
theorem twoheads {V : Type} {cs : List (Str × RadixNode V)}
    (hpw : pairwiseLcpEmpty (cs.map Prod.fst) = true)
    (hne : ∀ e ∈ cs, e.1 ≠ ([] : Str))
    (hgs : goodShapeCs cs = true) (hlen : 2 ≤ cs.length) :
    ∃ e1 ∈ keyvalsCs cs, ∃ e2 ∈ keyvalsCs cs, e1.1.head? ≠ e2.1.head? := by
  match cs, hlen with
  | (p1, c1) :: (p2, c2) :: rest, _ =>
    rw [goodShapeCs, Bool.and_eq_true_iff] at hgs
    obtain ⟨hg1, hgs2⟩ := hgs
    rw [goodShapeCs, Bool.and_eq_true_iff] at hgs2
    obtain ⟨hg2, _⟩ := hgs2
    have hk1 : keyvals c1 ≠ [] := keyvals_ne_nil c1 hg1
    have hk2 : keyvals c2 ≠ [] := keyvals_ne_nil c2 hg2
    obtain ⟨e1, he1⟩ := List.exists_mem_of_ne_nil _ hk1
    obtain ⟨e2, he2⟩ := List.exists_mem_of_ne_nil _ hk2
    obtain ⟨k1, w1⟩ := e1
    obtain ⟨k2, w2⟩ := e2
    have hm1 : (p1 ++ k1, w1) ∈ keyvalsCs ((p1, c1) :: (p2, c2) :: rest) :=
      mem_keyvalsCs_intro (List.mem_cons_self ..) he1
    have hm2 : (p2 ++ k2, w2) ∈ keyvalsCs ((p1, c1) :: (p2, c2) :: rest) :=
      mem_keyvalsCs_intro (List.mem_cons_of_mem _ (List.mem_cons_self ..)) he2
    have hp1 : p1 ≠ [] := hne (p1, c1) (List.mem_cons_self ..)
    have hp2 : p2 ≠ [] := hne (p2, c2) (List.mem_cons_of_mem _ (List.mem_cons_self ..))
    have hlcp : commonLongestPrefix p1 p2 = [] := by
      rw [List.map_cons, pairwiseLcpEmpty_cons] at hpw
      exact hpw.1 p2 (by rw [List.map_cons]; exact List.mem_cons_self ..)
    refine ⟨(p1 ++ k1, w1), hm1, (p2 ++ k2, w2), hm2, ?_⟩
    rw [List.head?_append_of_ne_nil p1 hp1, List.head?_append_of_ne_nil p2 hp2]
    exact heads_ne_of_lcp_nil hp1 hp2 hlcp

/-- No binding contributed by a child with a non-empty prefix has the
empty key. -/
theorem nil_key_not_mem_keyvalsCs {V : Type} {cs : List (Str × RadixNode V)}
    (hne : ∀ e ∈ cs, e.1 ≠ ([] : Str)) (w : V) :
    (([], w) ∉ keyvalsCs cs) := by
  intro h
  obtain ⟨pch, hpch, k, hk1, _⟩ := mem_keyvalsCs h
  have hlen := congrArg List.length hk1
  simp at hlen
  exact hne pch hpch (List.eq_nil_of_length_eq_zero (by omega))

/-- A binding under the empty relative key is exactly the node's own
value, when all child prefixes are non-empty. -/
theorem nil_key_mem_keyvals {V : Type} {val : Option V} {cs : List (Str × RadixNode V)}
    (hne : ∀ e ∈ cs, e.1 ≠ ([] : Str)) (w : V) :
    (([], w) ∈ keyvals (RadixNode.mk val cs)) ↔ val = some w := by
  cases val with
  | none =>
    rw [keyvals]
    simp only [List.nil_append]
    constructor
    · intro h
      exact (nil_key_not_mem_keyvalsCs hne w h).elim
    · intro h
      simp at h
  | some v =>
    rw [keyvals]
    constructor
    · intro h
      rcases List.mem_append.mp h with h1 | h1
      · simp at h1
        rw [h1]
      · exact (nil_key_not_mem_keyvalsCs hne w h1).elim
    · intro h
      simp at h
      subst h
      exact List.mem_append.mpr (Or.inl (by simp))

/-- Bindings-permutation of two nodes with the same value restricts to
their children dicts. -/
theorem keyvalsCs_perm_of_keyvals_perm {V : Type} {val : Option V}
    {cs1 cs2 : List (Str × RadixNode V)}
    (h : (keyvals (RadixNode.mk val cs1)).Perm (keyvals (RadixNode.mk val cs2))) :
    (keyvalsCs cs1).Perm (keyvalsCs cs2) := by
  cases val with
  | none => simpa [keyvals] using h
  | some v =>
    rw [keyvals, keyvals, List.singleton_append, List.singleton_append] at h
    exact h.cons_inv

/-- Nodes with permuted bindings store the same value. -/
theorem value_eq_of_keyvals_perm {V : Type} {v1 v2 : Option V}
    {cs1 cs2 : List (Str × RadixNode V)}
    (hne1 : ∀ e ∈ cs1, e.1 ≠ ([] : Str)) (hne2 : ∀ e ∈ cs2, e.1 ≠ ([] : Str))
    (h : (keyvals (RadixNode.mk v1 cs1)).Perm (keyvals (RadixNode.mk v2 cs2))) :
    v1 = v2 := by
  cases v1 with
  | some w =>
    have := (nil_key_mem_keyvals hne2 w).mp
      (h.mem_iff.mp ((nil_key_mem_keyvals hne1 w).mpr rfl))
    rw [this]
  | none =>
    cases v2 with
    | none => rfl
    | some w =>
      exact (nil_key_mem_keyvals hne1 w).mp
        (h.mem_iff.mpr ((nil_key_mem_keyvals hne2 w).mpr rfl))

/-- A disciplined node's children dict is itself disciplined. -/
theorem goodShapeCs_children {V : Type} {n : RadixNode V} (h : goodShape n = true) :
    goodShapeCs n.children = true := by
  obtain ⟨val, cs⟩ := n
  cases val with
  | some v =>
    rw [goodShape_some_iff] at h
    simp [RadixNode.children, h, goodShapeCs]
  | none =>
    rw [goodShape_none_iff] at h
    simpa [RadixNode.children] using h.2

/-- Two compressed, disciplined children dicts with permuted bindings
cannot pair a child of one with a properly longer-prefixed source in the
other: the shorter prefix's child either is a leaf whose single binding
would have to extend the longer prefix, or branches into two next symbols
while every binding extending its prefix must continue with the longer
prefix's next symbol. -/
theorem no_proper_prefix_partner {V : Type} {csA csB : List (Str × RadixNode V)}
    (hpwB : pairwiseLcpEmpty (csB.map Prod.fst) = true)
    (hneB : ∀ e ∈ csB, e.1 ≠ ([] : Str))
    (hcompA : allNodesCompressedCs csA = true)
    (hnrA : nonRootPrefixesNonemptyCs csA = true)
    (hgsA : goodShapeCs csA = true)
    (hperm : (keyvalsCs csA).Perm (keyvalsCs csB))
    {q : Str} {d : RadixNode V} (hA : (q, d) ∈ csA)
    {q2 : Str} {d2 : RadixNode V} (hB : (q2, d2) ∈ csB)
    (hqpre : q <+: q2) (hqlt : q.length < q2.length) : False := by
  have hq : q ≠ [] := (nonRootPrefixesNonemptyCs_mem hnrA hA).1
  have hhead : q2.head? = q.head? := by
    obtain ⟨r0, hr0⟩ := hqpre
    rw [← hr0]
    exact List.head?_append_of_ne_nil q hq
  have hfilter := filter_keyvalsCs_head hpwB hneB hB
  have htrans : ∀ x1 : Str, ∀ x2 : V, (x1, x2) ∈ keyvals d → q2 <+: q ++ x1 := by
    intro x1 x2 hx
    have hx1 : (q ++ x1, x2) ∈ keyvalsCs csA := mem_keyvalsCs_intro hA hx
    have hx2 : (q ++ x1, x2) ∈ keyvalsCs csB := hperm.mem_iff.mp hx1
    have hx3 : (q ++ x1).head? = q2.head? := by
      rw [List.head?_append_of_ne_nil q hq]
      exact hhead.symm
    have hx4 : (q ++ x1, x2) ∈ (keyvalsCs csB).filter (fun e => e.1.head? == q2.head?) :=
      List.mem_filter.mpr ⟨hx2, by simp [hx3]⟩
    rw [hfilter] at hx4
    obtain ⟨y, _, hye⟩ := List.mem_map.mp hx4
    rw [Prod.mk.injEq] at hye
    exact ⟨y.1, hye.1⟩
  have hgsd : goodShape d = true := goodShapeCs_mem hgsA hA
  obtain ⟨dv, dcs⟩ := d
  cases dv with
  | some w =>
    have hl : dcs = [] := (goodShape_some_iff w dcs).mp hgsd
    subst hl
    have hmemw : (([] : Str), w) ∈ keyvals (RadixNode.mk (some w) []) := by
      simp [keyvals, keyvalsCs]
    have hpre := htrans [] w hmemw
    rw [List.append_nil] at hpre
    have := hpre.length_le
    omega
  | none =>
    have h2 := (goodShape_none_iff dcs).mp hgsd
    have hcompd := allNodesCompressedCs_mem hcompA hA
    rw [allNodesCompressed, Bool.and_eq_true_iff] at hcompd
    have hnrd := (nonRootPrefixesNonemptyCs_mem hnrA hA).2
    rw [nonRootPrefixesNonempty] at hnrd
    have hneD : ∀ e ∈ dcs, e.1 ≠ ([] : Str) :=
      fun e he => (nonRootPrefixesNonemptyCs_mem hnrd he).1
    obtain ⟨e1, he1, e2, he2, hheads⟩ := twoheads hcompd.1 hneD h2.2 h2.1
    have hkv : keyvals (RadixNode.mk (none : Option V) dcs) = keyvalsCs dcs := by
      simp [keyvals]
    have hqr : q ++ q2.drop q.length = q2 := prefix_append_drop hqpre
    have hrne : q2.drop q.length ≠ [] := drop_ne_nil_of_lt hqlt
    obtain ⟨x1, x2⟩ := e1
    obtain ⟨y1, y2⟩ := e2
    have hp1 : q2 <+: q ++ x1 := htrans x1 x2 (by rw [hkv]; exact he1)
    have hp2 : q2 <+: q ++ y1 := htrans y1 y2 (by rw [hkv]; exact he2)
    rw [← hqr] at hp1 hp2
    have hr1 : q2.drop q.length <+: x1 := (List.prefix_append_right_inj q).mp hp1
    have hr2 : q2.drop q.length <+: y1 := (List.prefix_append_right_inj q).mp hp2
    obtain ⟨t1, ht1⟩ := hr1
    obtain ⟨t2, ht2⟩ := hr2
    apply hheads
    show x1.head? = y1.head?
    rw [← ht1, ← ht2, List.head?_append_of_ne_nil _ hrne,
      List.head?_append_of_ne_nil _ hrne]

/-- In two compressed, disciplined children dicts with permuted bindings,
every child of one has a partner in the other under the same prefix with
permuted bindings. -/
theorem child_partner {V : Type} {cs1 cs2 : List (Str × RadixNode V)}
    (hpw1 : pairwiseLcpEmpty (cs1.map Prod.fst) = true)
    (hpw2 : pairwiseLcpEmpty (cs2.map Prod.fst) = true)
    (hcomp1 : allNodesCompressedCs cs1 = true) (hcomp2 : allNodesCompressedCs cs2 = true)
    (hnr1 : nonRootPrefixesNonemptyCs cs1 = true) (hnr2 : nonRootPrefixesNonemptyCs cs2 = true)
    (hgs1 : goodShapeCs cs1 = true) (hgs2 : goodShapeCs cs2 = true)
    (hperm : (keyvalsCs cs1).Perm (keyvalsCs cs2))
    {p : Str} {ch : RadixNode V} (hmem : (p, ch) ∈ cs1) :
    ∃ ch2, (p, ch2) ∈ cs2 ∧ (keyvals ch).Perm (keyvals ch2) := by
  have hne1 : ∀ e ∈ cs1, e.1 ≠ ([] : Str) :=
    fun e he => (nonRootPrefixesNonemptyCs_mem hnr1 he).1
  have hne2 : ∀ e ∈ cs2, e.1 ≠ ([] : Str) :=
    fun e he => (nonRootPrefixesNonemptyCs_mem hnr2 he).1
  have hgsch : goodShape ch = true := goodShapeCs_mem hgs1 hmem
  obtain ⟨e0, he0⟩ := List.exists_mem_of_ne_nil _ (keyvals_ne_nil ch hgsch)
  obtain ⟨k, w⟩ := e0
  have h1 : (p ++ k, w) ∈ keyvalsCs cs2 :=
    hperm.mem_iff.mp (mem_keyvalsCs_intro hmem he0)
  obtain ⟨pch2, hmem2, k2, hkey, _⟩ := mem_keyvalsCs h1
  obtain ⟨p2, ch2⟩ := pch2
  have hkey2 : p ++ k = p2 ++ k2 := hkey
  have hp : p <+: (p ++ k) := List.prefix_append p k
  have hp2 : p2 <+: (p ++ k) := by rw [hkey2]; exact List.prefix_append p2 k2
  have hlen : p.length = p2.length := by
    rcases Nat.lt_trichotomy p.length p2.length with hlt | heq | hgt
    · exact (no_proper_prefix_partner hpw2 hne2 hcomp1 hnr1 hgs1 hperm hmem hmem2
        (List.prefix_of_prefix_length_le hp hp2 (le_of_lt hlt)) hlt).elim
    · exact heq
    · exact (no_proper_prefix_partner hpw1 hne1 hcomp2 hnr2 hgs2 hperm.symm hmem2 hmem
        (List.prefix_of_prefix_length_le hp2 hp (le_of_lt hgt)) hgt).elim
  have hpeq : p2 = p :=
    List.IsPrefix.eq_of_length
      (List.prefix_of_prefix_length_le hp2 hp (le_of_eq hlen.symm)) hlen.symm
  subst hpeq
  refine ⟨ch2, hmem2, ?_⟩
  have hf1 := filter_keyvalsCs_head hpw1 hne1 hmem
  have hf2 := filter_keyvalsCs_head hpw2 hne2 hmem2
  have hfp := hperm.filter (fun e => e.1.head? == p2.head?)
  rw [hf1, hf2] at hfp
  exact map_prefix_perm_cancel p2 hfp

/-- Sorting by key sends permuted dicts with duplicate-free keys to the
same list. -/
theorem insertionSort_eq_of_perm_nodupKeys {V : Type} {l1 l2 : List (Str × RadixNode V)}
    (hperm : l1.Perm l2) (hnd : (l1.map Prod.fst).Nodup) :
    List.insertionSort (fun a b => a.1 ≤ b.1) l1
      = List.insertionSort (fun a b => a.1 ≤ b.1) l2 := by
  have hs1p := List.perm_insertionSort (fun (a b : Str × RadixNode V) => a.1 ≤ b.1) l1
  have hs2p := List.perm_insertionSort (fun (a b : Str × RadixNode V) => a.1 ≤ b.1) l2
  have hp : (List.insertionSort (fun (a b : Str × RadixNode V) => a.1 ≤ b.1) l1).Perm
      (List.insertionSort (fun (a b : Str × RadixNode V) => a.1 ≤ b.1) l2) :=
    hs1p.trans (hperm.trans hs2p.symm)
  have hnd1 : ((List.insertionSort (fun (a b : Str × RadixNode V) => a.1 ≤ b.1) l1).map
      Prod.fst).Nodup := ((hs1p.map Prod.fst).nodup_iff).mpr hnd
  have hnd2 : ((List.insertionSort (fun (a b : Str × RadixNode V) => a.1 ≤ b.1) l2).map
      Prod.fst).Nodup := ((hp.map Prod.fst).nodup_iff).mp hnd1
  have hso1 := List.sorted_insertionSort (fun (a b : Str × RadixNode V) => a.1 ≤ b.1) l1
  have hso2 := List.sorted_insertionSort (fun (a b : Str × RadixNode V) => a.1 ≤ b.1) l2
  have hstrict1 : List.Pairwise (fun (a b : Str × RadixNode V) => a.1 < b.1)
      (List.insertionSort (fun (a b : Str × RadixNode V) => a.1 ≤ b.1) l1) := by
    have hsle : List.Pairwise (fun (a b : Str × RadixNode V) => a.1 ≤ b.1)
        (List.insertionSort (fun (a b : Str × RadixNode V) => a.1 ≤ b.1) l1) := hso1
    have hsne : List.Pairwise (fun (a b : Str × RadixNode V) => a.1 ≠ b.1)
        (List.insertionSort (fun (a b : Str × RadixNode V) => a.1 ≤ b.1) l1) :=
      List.pairwise_map.mp hnd1
    exact (hsle.and hsne).imp (fun h => lt_of_le_of_ne h.1 h.2)
  have hstrict2 : List.Pairwise (fun (a b : Str × RadixNode V) => a.1 < b.1)
      (List.insertionSort (fun (a b : Str × RadixNode V) => a.1 ≤ b.1) l2) := by
    have hsle : List.Pairwise (fun (a b : Str × RadixNode V) => a.1 ≤ b.1)
        (List.insertionSort (fun (a b : Str × RadixNode V) => a.1 ≤ b.1) l2) := hso2
    have hsne : List.Pairwise (fun (a b : Str × RadixNode V) => a.1 ≠ b.1)
        (List.insertionSort (fun (a b : Str × RadixNode V) => a.1 ≤ b.1) l2) :=
      List.pairwise_map.mp hnd2
    exact (hsle.and hsne).imp (fun h => lt_of_le_of_ne h.1 h.2)
  haveI : IsAntisymm (Str × RadixNode V) (fun a b => a.1 < b.1) :=
    ⟨fun a b h1 h2 => absurd (h1.trans h2) (lt_irrefl a.1)⟩
  exact List.eq_of_perm_of_sorted hp hstrict1 hstrict2

/-- Canonical uniqueness: two compressed trees with non-empty non-root
prefixes and disciplined children storing the same bindings (as a
multiset) have the same canonical form, hence the same dictionary
structure up to Python ==. -/
theorem canonize_unique {V : Type} (n1 : RadixNode V) :
    ∀ n2 : RadixNode V,
      allNodesCompressed n1 = true → allNodesCompressed n2 = true →
      nonRootPrefixesNonempty n1 = true → nonRootPrefixesNonempty n2 = true →
      goodShapeCs n1.children = true → goodShapeCs n2.children = true →
      (keyvals n1).Perm (keyvals n2) → canonize n1 = canonize n2 := by
  induction n1 using nodeInd with
  | h val cs ih =>
    intro n2 hc1 hc2 hn1 hn2 hg1 hg2 hperm
    obtain ⟨val2, cs2⟩ := n2
    rw [allNodesCompressed, Bool.and_eq_true_iff] at hc1 hc2
    rw [nonRootPrefixesNonempty] at hn1 hn2
    simp only [RadixNode.children] at hg1 hg2
    have hne1 : ∀ e ∈ cs, e.1 ≠ ([] : Str) :=
      fun e he => (nonRootPrefixesNonemptyCs_mem hn1 he).1
    have hne2 : ∀ e ∈ cs2, e.1 ≠ ([] : Str) :=
      fun e he => (nonRootPrefixesNonemptyCs_mem hn2 he).1
    have hval : val = val2 := value_eq_of_keyvals_perm hne1 hne2 hperm
    subst hval
    have hkvcs : (keyvalsCs cs).Perm (keyvalsCs cs2) :=
      keyvalsCs_perm_of_keyvals_perm hperm
    have hsub12 : ∀ e ∈ canonizeCs cs, e ∈ canonizeCs cs2 := by
      intro e he
      obtain ⟨ep, ev⟩ := e
      obtain ⟨ch, hch, hech⟩ := mem_canonizeCs he
      obtain ⟨ch2, hch2, hpch⟩ :=
        child_partner hc1.1 hc2.1 hc1.2 hc2.2 hn1 hn2 hg1 hg2 hkvcs hch
      have hcheq : canonize ch = canonize ch2 := by
        apply ih (ep, ch) hch ch2
        · exact allNodesCompressedCs_mem hc1.2 hch
        · exact allNodesCompressedCs_mem hc2.2 hch2
        · exact (nonRootPrefixesNonemptyCs_mem hn1 hch).2
        · exact (nonRootPrefixesNonemptyCs_mem hn2 hch2).2
        · exact goodShapeCs_children (goodShapeCs_mem hg1 hch)
        · exact goodShapeCs_children (goodShapeCs_mem hg2 hch2)
        · exact hpch
      show (ep, ev) ∈ canonizeCs cs2
      rw [show ev = canonize ch from hech, hcheq]
      exact mem_canonizeCs_intro hch2
    have hsub21 : ∀ e ∈ canonizeCs cs2, e ∈ canonizeCs cs := by
      intro e he
      obtain ⟨ep, ev⟩ := e
      obtain ⟨ch2, hch2, hech⟩ := mem_canonizeCs he
      obtain ⟨ch, hch, hpch⟩ :=
        child_partner hc2.1 hc1.1 hc2.2 hc1.2 hn2 hn1 hg2 hg1 hkvcs.symm hch2
      have hcheq : canonize ch = canonize ch2 := by
        apply ih (ep, ch) hch ch2
        · exact allNodesCompressedCs_mem hc1.2 hch
        · exact allNodesCompressedCs_mem hc2.2 hch2
        · exact (nonRootPrefixesNonemptyCs_mem hn1 hch).2
        · exact (nonRootPrefixesNonemptyCs_mem hn2 hch2).2
        · exact goodShapeCs_children (goodShapeCs_mem hg1 hch)
        · exact goodShapeCs_children (goodShapeCs_mem hg2 hch2)
        · exact hpch.symm
      show (ep, ev) ∈ canonizeCs cs
      rw [show ev = canonize ch2 from hech, ← hcheq]
      exact mem_canonizeCs_intro hch
    have hndk1 : ((canonizeCs cs).map Prod.fst).Nodup := by
      rw [map_fst_canonizeCs]
      apply nodup_of_pairwiseLcp hc1.1
      intro k hk
      obtain ⟨e, he, hek⟩ := List.mem_map.mp hk
      rw [← hek]
      exact hne1 e he
    have hndk2 : ((canonizeCs cs2).map Prod.fst).Nodup := by
      rw [map_fst_canonizeCs]
      apply nodup_of_pairwiseLcp hc2.1
      intro k hk
      obtain ⟨e, he, hek⟩ := List.mem_map.mp hk
      rw [← hek]
      exact hne2 e he
    have hpermC : (canonizeCs cs).Perm (canonizeCs cs2) :=
      ((hndk1.of_map).subperm hsub12).antisymm ((hndk2.of_map).subperm hsub21)
    simp only [canonize.eq_def]
    exact congrArg (RadixNode.mk val) (insertionSort_eq_of_perm_nodupKeys hpermC hndk1)

/-- as_dict over a children dict is the entrywise map. -/
theorem asDictCs_eq_map {V : Type} (cs : List (Str × RadixNode V)) :
    RadixNode.asDictCs cs = cs.map (fun e => (e.1, RadixNode.asDict e.2)) := by
  induction cs with
  | nil => rfl
  | cons hd rest ih =>
    obtain ⟨p, ch⟩ := hd
    rw [RadixNode.asDictCs, ih, List.map_cons]

/-- Dictionary lookup in the as_dict export of a duplicate-free children
dict finds the child's export. -/
theorem sdLookup_asDictCs {V : Type} {cs : List (Str × RadixNode V)}
    (hnd : (cs.map Prod.fst).Nodup) {p : Str} {ch : RadixNode V}
    (hmem : (p, ch) ∈ cs) :
    sdLookup p (RadixNode.asDictCs cs) = some (RadixNode.asDict ch) := by
  induction cs with
  | nil => simp at hmem
  | cons hd rest ihl =>
    obtain ⟨q, d⟩ := hd
    rw [List.map_cons, List.nodup_cons] at hnd
    rw [RadixNode.asDictCs, sdLookup]
    by_cases hq : q = p
    · subst hq
      rw [if_pos rfl]
      rcases List.mem_cons.mp hmem with h1 | h1
      · rw [Prod.mk.injEq] at h1
        rw [h1.2]
      · exact absurd (List.mem_map_of_mem Prod.fst h1) hnd.1
    · rw [if_neg hq]
      apply ihl hnd.2
      rcases List.mem_cons.mp hmem with h1 | h1
      · rw [Prod.mk.injEq] at h1
        exact absurd h1.1.symm hq
      · exact h1

/-- Trees with the same canonical form have Python-== as_dict exports,
given compressed children dicts with non-empty prefixes (which make all
keys duplicate-free). -/
theorem pyEqS_of_canonize_eq {V : Type} (n1 : RadixNode V) :
    ∀ n2 : RadixNode V,
      allNodesCompressed n1 = true → allNodesCompressed n2 = true →
      nonRootPrefixesNonempty n1 = true → nonRootPrefixesNonempty n2 = true →
      canonize n1 = canonize n2 →
      pyEqS (RadixNode.asDict n1) (RadixNode.asDict n2) = true := by
  induction n1 using nodeInd with
  | h val cs ih =>
    intro n2 hc1 hc2 hn1 hn2 hceq
    obtain ⟨val2, cs2⟩ := n2
    simp only [canonize.eq_def] at hceq
    injection hceq with hv hcs
    have hpermC : (canonizeCs cs).Perm (canonizeCs cs2) := by
      have h2 := List.perm_insertionSort
        (fun (a b : Str × RadixNode V) => a.1 ≤ b.1) (canonizeCs cs2)
      rw [← hcs] at h2
      exact (List.perm_insertionSort
        (fun (a b : Str × RadixNode V) => a.1 ≤ b.1) (canonizeCs cs)).symm.trans h2
    rw [allNodesCompressed, Bool.and_eq_true_iff] at hc1 hc2
    rw [nonRootPrefixesNonempty] at hn1 hn2
    have hne2 : ∀ e ∈ cs2, e.1 ≠ ([] : Str) :=
      fun e he => (nonRootPrefixesNonemptyCs_mem hn2 he).1
    have hndk2 : (cs2.map Prod.fst).Nodup := by
      apply nodup_of_pairwiseLcp hc2.1
      intro k hk
      obtain ⟨e, he, hek⟩ := List.mem_map.mp hk
      rw [← hek]
      exact hne2 e he
    have hlencs : cs.length = cs2.length := by
      have := hpermC.length_eq
      rw [canonizeCs_eq_map, canonizeCs_eq_map] at this
      simpa using this
    rw [RadixNode.asDict, RadixNode.asDict, pyEqS, Bool.and_eq_true_iff]
    constructor
    · rw [asDictCs_eq_map, asDictCs_eq_map]
      simp [hlencs]
    · have hmain : ∀ l : List (Str × RadixNode V), (∀ e ∈ l, e ∈ cs) →
          pyEqEntries (RadixNode.asDictCs l) (RadixNode.asDictCs cs2) = true := by
        intro l
        induction l with
        | nil => intro _; rfl
        | cons hd rest ihl =>
          intro hsub
          obtain ⟨p, chd⟩ := hd
          have hmem : (p, chd) ∈ cs := hsub (p, chd) (List.mem_cons_self ..)
          have hcanmem : (p, canonize chd) ∈ canonizeCs cs2 :=
            hpermC.mem_iff.mp (mem_canonizeCs_intro hmem)
          obtain ⟨ch2, hch2, hech⟩ := mem_canonizeCs hcanmem
          have hlook := sdLookup_asDictCs hndk2 hch2
          have hrec : pyEqS (RadixNode.asDict chd) (RadixNode.asDict ch2) = true := by
            apply ih (p, chd) hmem ch2
            · exact allNodesCompressedCs_mem hc1.2 hmem
            · exact allNodesCompressedCs_mem hc2.2 hch2
            · exact (nonRootPrefixesNonemptyCs_mem hn1 hmem).2
            · exact (nonRootPrefixesNonemptyCs_mem hn2 hch2).2
            · exact hech
          simp only [RadixNode.asDictCs, pyEqEntries, hlook]
          rw [hrec, Bool.true_and]
          exact ihl (fun e he => hsub e (List.mem_cons_of_mem _ he))
      exact hmain cs (fun e he => he)

/-- Insertion into a children dict never shrinks it. -/
theorem insertCs_length_ge {V : Type} (key : Str) (v : V)
    (cs : List (Str × RadixNode V)) :
    cs.length ≤ (RadixNode.insertCs key v cs).length := by
  induction cs with
  | nil => simp [RadixNode.insertCs]
  | cons hd rest ih =>
    obtain ⟨p, ch⟩ := hd
    rw [insertCs_cons]
    by_cases hc : commonLongestPrefix key p = []
    · rw [if_pos hc]
      simp only [List.length_cons]
      omega
    · rw [if_neg hc]
      by_cases hex : p = key ∧ commonLongestPrefix key p = p
      · rw [if_pos hex]
        simp
      · rw [if_neg hex]
        by_cases hcp : commonLongestPrefix key p = p
        · rw [if_pos hcp]
          simp
        · rw [if_neg hcp]
          simp

/-- The non-empty-prefix check over appended children lists. -/
theorem nonRootPrefixesNonemptyCs_append {V : Type} (l1 l2 : List (Str × RadixNode V)) :
    nonRootPrefixesNonemptyCs (l1 ++ l2)
      = (nonRootPrefixesNonemptyCs l1 && nonRootPrefixesNonemptyCs l2) := by
  induction l1 with
  | nil => simp [nonRootPrefixesNonemptyCs]
  | cons hd rest ih =>
    obtain ⟨p, ch⟩ := hd
    rw [List.cons_append, nonRootPrefixesNonemptyCs, nonRootPrefixesNonemptyCs, ih]
    simp [Bool.and_assoc]

/-- The shape check over appended children lists. -/
theorem goodShapeCs_append {V : Type} (l1 l2 : List (Str × RadixNode V)) :
    goodShapeCs (l1 ++ l2) = (goodShapeCs l1 && goodShapeCs l2) := by
  induction l1 with
  | nil => simp [goodShapeCs]
  | cons hd rest ih =>
    obtain ⟨p, ch⟩ := hd
    rw [List.cons_append, goodShapeCs, goodShapeCs, ih, Bool.and_assoc]

/-- Inserting a fresh key (prefix-independent from every stored key) into
a disciplined children dict keeps prefixes non-empty and the shape
discipline, and adds exactly the one binding. -/
theorem insertCs_fresh_ok {V : Type} (key : Str) (v : V)
    (cs : List (Str × RadixNode V)) (hkey : key ≠ [])
    (hins : ∀ e ∈ cs, ∀ (k2 : Str) (v2 : V), k2 ≠ [] →
        (∀ b ∈ keyvals e.2, ¬ k2 <+: b.1 ∧ ¬ b.1 <+: k2) →
        nonRootPrefixesNonempty e.2 = true →
        goodShapeCs (RadixNode.children e.2) = true →
        nonRootPrefixesNonempty (RadixNode.insert k2 v2 e.2) = true ∧
        goodShapeCs (RadixNode.children (RadixNode.insert k2 v2 e.2)) = true ∧
        (keyvals (RadixNode.insert k2 v2 e.2)).Perm ((k2, v2) :: keyvals e.2))
    (hfresh : ∀ e ∈ keyvalsCs cs, ¬ key <+: e.1 ∧ ¬ e.1 <+: key)
    (hnr : nonRootPrefixesNonemptyCs cs = true)
    (hgs : goodShapeCs cs = true) :
    nonRootPrefixesNonemptyCs (RadixNode.insertCs key v cs) = true ∧
    goodShapeCs (RadixNode.insertCs key v cs) = true ∧
    (keyvalsCs (RadixNode.insertCs key v cs)).Perm ((key, v) :: keyvalsCs cs) := by
  induction cs with
  | nil =>
    refine ⟨?_, ?_, ?_⟩
    · simp [RadixNode.insertCs, nonRootPrefixesNonemptyCs, nonRootPrefixesNonempty,
        List.isEmpty_iff, hkey]
    · simp [RadixNode.insertCs, goodShapeCs, goodShape]
    · simp [RadixNode.insertCs, keyvalsCs, keyvals]
  | cons hd rest ih =>
    obtain ⟨p, ch⟩ := hd
    rw [nonRootPrefixesNonemptyCs, Bool.and_eq_true_iff, Bool.and_eq_true_iff] at hnr
    obtain ⟨⟨hpb, hnrch⟩, hnrrest⟩ := hnr
    have hp : p ≠ [] := by simpa [List.isEmpty_iff] using hpb
    rw [goodShapeCs, Bool.and_eq_true_iff] at hgs
    obtain ⟨hgsch, hgsrest⟩ := hgs
    have hfreshrest : ∀ e ∈ keyvalsCs rest, ¬ key <+: e.1 ∧ ¬ e.1 <+: key := by
      intro e he
      exact hfresh e (by rw [keyvalsCs, List.mem_append]; exact Or.inr he)
    have hinsrest : ∀ e ∈ rest, ∀ (k2 : Str) (v2 : V), k2 ≠ [] →
        (∀ b ∈ keyvals e.2, ¬ k2 <+: b.1 ∧ ¬ b.1 <+: k2) →
        nonRootPrefixesNonempty e.2 = true →
        goodShapeCs (RadixNode.children e.2) = true →
        nonRootPrefixesNonempty (RadixNode.insert k2 v2 e.2) = true ∧
        goodShapeCs (RadixNode.children (RadixNode.insert k2 v2 e.2)) = true ∧
        (keyvals (RadixNode.insert k2 v2 e.2)).Perm ((k2, v2) :: keyvals e.2) :=
      fun e he => hins e (List.mem_cons_of_mem _ he)
    rw [insertCs_cons]
    by_cases hc : commonLongestPrefix key p = []
    · -- this child does not match: keep scanning
      rw [if_pos hc]
      obtain ⟨ih1, ih2, ih3⟩ := ih hinsrest hfreshrest hnrrest hgsrest
      refine ⟨?_, ?_, ?_⟩
      · rw [nonRootPrefixesNonemptyCs, Bool.and_eq_true_iff, Bool.and_eq_true_iff]
        exact ⟨⟨hpb, hnrch⟩, ih1⟩
      · rw [goodShapeCs, Bool.and_eq_true_iff]
        exact ⟨hgsch, ih2⟩
      · rw [keyvalsCs, keyvalsCs]
        exact (List.Perm.append_left _ ih3).trans List.perm_middle
    · rw [if_neg hc]
      by_cases hex : p = key ∧ commonLongestPrefix key p = p
      · -- exact match: impossible for a fresh key, which is stored already
        exfalso
        obtain ⟨b, hb⟩ := List.exists_mem_of_ne_nil _ (keyvals_ne_nil ch hgsch)
        obtain ⟨b1, b2⟩ := b
        have hstored : (p ++ b1, b2) ∈ keyvalsCs ((p, ch) :: rest) :=
          mem_keyvalsCs_intro (List.mem_cons_self ..) hb
        have hpre : key <+: p ++ b1 := by
          rw [hex.1]
          exact List.prefix_append key b1
        exact (hfresh (p ++ b1, b2) hstored).1 hpre
      · rw [if_neg hex]
        by_cases hcp : commonLongestPrefix key p = p
        · -- the key extends the child's prefix: recurse into the child
          rw [if_pos hcp]
          rw [hcp]
          have hppre : p <+: key := hcp ▸ lcp_prefix_left key p
          have hpk : p ≠ key := fun h => hex ⟨h, hcp⟩
          have hlt : p.length < key.length := prefix_proper_lt hppre hpk
          have hk2 : key.drop p.length ≠ [] := drop_ne_nil_of_lt hlt
          have hpkey : p ++ key.drop p.length = key := prefix_append_drop hppre
          have hfresh2 : ∀ b ∈ keyvals ch,
              ¬ key.drop p.length <+: b.1 ∧ ¬ b.1 <+: key.drop p.length := by
            intro b hb
            have hf := hfresh (p ++ b.1, b.2)
              (mem_keyvalsCs_intro (List.mem_cons_self ..) hb)
            constructor
            · intro hcon
              apply hf.1
              have := (List.prefix_append_right_inj p).mpr hcon
              rw [hpkey] at this
              exact this
            · intro hcon
              apply hf.2
              have := (List.prefix_append_right_inj p).mpr hcon
              rw [hpkey] at this
              exact this
          obtain ⟨chv, chcs⟩ := ch
          cases chv with
          | some w =>
            exfalso
            have hl : chcs = [] := (goodShape_some_iff w chcs).mp hgsch
            subst hl
            have hmemw : (([] : Str), w) ∈ keyvals (RadixNode.mk (some w) []) := by
              simp [keyvals, keyvalsCs]
            have hstored : (p ++ [], w) ∈ keyvalsCs ((p, RadixNode.mk (some w) []) :: rest) :=
              mem_keyvalsCs_intro (List.mem_cons_self ..) hmemw
            have hpre : (p ++ [] : Str) <+: key := by
              rw [List.append_nil]
              exact hppre
            exact (hfresh (p ++ [], w) hstored).2 hpre
          | none =>
            have hsh := (goodShape_none_iff chcs).mp hgsch
            obtain ⟨r1, r2, r3⟩ := hins (p, RadixNode.mk none chcs) (List.mem_cons_self ..)
              (key.drop p.length) v hk2 hfresh2 hnrch
              (by simpa [RadixNode.children] using hsh.2)
            have hgsnew : goodShape
                (RadixNode.insert (key.drop p.length) v (RadixNode.mk none chcs)) = true := by
              rw [show RadixNode.insert (key.drop p.length) v (RadixNode.mk none chcs)
                  = RadixNode.mk none (RadixNode.insertCs (key.drop p.length) v chcs) from rfl]
              rw [goodShape_none_iff]
              exact ⟨le_trans hsh.1 (insertCs_length_ge (key.drop p.length) v chcs),
                by simpa [RadixNode.children] using r2⟩
            refine ⟨?_, ?_, ?_⟩
            · rw [nonRootPrefixesNonemptyCs, Bool.and_eq_true_iff, Bool.and_eq_true_iff]
              exact ⟨⟨hpb, r1⟩, hnrrest⟩
            · rw [goodShapeCs, Bool.and_eq_true_iff]
              exact ⟨hgsnew, hgsrest⟩
            · rw [keyvalsCs, keyvalsCs]
              apply List.Perm.trans
                (List.Perm.append_right _ (r3.map (fun e => (p ++ e.1, e.2))))
              rw [List.map_cons]
              show ((p ++ key.drop p.length, v) ::
                  (keyvals (RadixNode.mk none chcs)).map (fun e => (p ++ e.1, e.2)))
                  ++ keyvalsCs rest
                |>.Perm _
              rw [hpkey, List.cons_append]
        · -- split: intermediate node under the common prefix
          rw [if_neg hcp]
          have hcppre : commonLongestPrefix key p <+: p := lcp_prefix_right key p
          have hckpre : commonLongestPrefix key p <+: key := lcp_prefix_left key p
          have hlt : (commonLongestPrefix key p).length < p.length :=
            prefix_proper_lt hcppre hcp
          have hpdrop : p.drop (commonLongestPrefix key p).length ≠ [] :=
            drop_ne_nil_of_lt hlt
          have hckne : commonLongestPrefix key p ≠ key := by
            intro h
            obtain ⟨b, hb⟩ := List.exists_mem_of_ne_nil _ (keyvals_ne_nil ch hgsch)
            obtain ⟨b1, b2⟩ := b
            have hstored : (p ++ b1, b2) ∈ keyvalsCs ((p, ch) :: rest) :=
              mem_keyvalsCs_intro (List.mem_cons_self ..) hb
            have hpre : key <+: p ++ b1 :=
              ((h ▸ hcppre).trans (List.prefix_append p b1))
            exact (hfresh (p ++ b1, b2) hstored).1 hpre
          have hklt : (commonLongestPrefix key p).length < key.length :=
            prefix_proper_lt hckpre hckne
          have hkdrop : key.drop (commonLongestPrefix key p).length ≠ [] :=
            drop_ne_nil_of_lt hklt
          have hcpd : commonLongestPrefix key p ++ p.drop (commonLongestPrefix key p).length
              = p := prefix_append_drop hcppre
          have hckd : commonLongestPrefix key p ++ key.drop (commonLongestPrefix key p).length
              = key := prefix_append_drop hckpre
          refine ⟨?_, ?_, ?_⟩
          · rw [nonRootPrefixesNonemptyCs_append, Bool.and_eq_true_iff]
            refine ⟨hnrrest, ?_⟩
            simp only [nonRootPrefixesNonemptyCs, nonRootPrefixesNonempty]
            simp [List.isEmpty_iff, hc, hpdrop, hkdrop, hnrch]
          · rw [goodShapeCs_append, Bool.and_eq_true_iff]
            refine ⟨hgsrest, ?_⟩
            simp only [goodShapeCs, Bool.and_true]
            have hgi : goodShape (RadixNode.mk (none : Option V)
                [(p.drop (commonLongestPrefix key p).length, ch),
                 (key.drop (commonLongestPrefix key p).length,
                   RadixNode.mk (some v) [])]) = true := by
              rw [goodShape_none_iff]
              refine ⟨by simp, ?_⟩
              simp [goodShapeCs, hgsch, goodShape]
            simp [hgi]
          · rw [keyvalsCs_append]
            simp only [keyvalsCs, keyvals, List.map_append,
              List.append_nil, List.nil_append, List.map_cons, List.map_nil]
            have hmapeq : ((keyvals ch).map
                  (fun (e : Str × V) =>
                    (p.drop (commonLongestPrefix key p).length ++ e.1, e.2))).map
                  (fun (e : Str × V) => (commonLongestPrefix key p ++ e.1, e.2))
                = (keyvals ch).map (fun (e : Str × V) => (p ++ e.1, e.2)) := by
              rw [List.map_map]
              apply List.map_congr_left
              intro e _
              show (commonLongestPrefix key p ++
                  (p.drop (commonLongestPrefix key p).length ++ e.1), e.2)
                = ((p ++ e.1, e.2) : Str × V)
              rw [← List.append_assoc, hcpd]
            rw [hmapeq, hckd, ← List.append_assoc]
            exact (List.perm_append_singleton _ _).trans
              (List.Perm.cons _ List.perm_append_comm)

/-- Bindings of the children dict are bindings of the node. -/
theorem mem_keyvals_of_mem_keyvalsCs {V : Type} {val : Option V}
    {cs : List (Str × RadixNode V)} {e : Str × V} (h : e ∈ keyvalsCs cs) :
    e ∈ keyvals (RadixNode.mk val cs) := by
  cases val with
  | none =>
    rw [keyvals]
    exact List.mem_append.mpr (Or.inr h)
  | some w =>
    rw [keyvals]
    exact List.mem_append.mpr (Or.inr h)

/-- Node-level insert of a fresh key: non-empty prefixes and the shape
discipline of the children are preserved, and exactly the one binding is
added. -/
theorem insert_fresh_ok {V : Type} (n : RadixNode V) :
    ∀ (key : Str) (v : V), key ≠ [] →
      (∀ b ∈ keyvals n, ¬ key <+: b.1 ∧ ¬ b.1 <+: key) →
      nonRootPrefixesNonempty n = true →
      goodShapeCs (RadixNode.children n) = true →
      nonRootPrefixesNonempty (RadixNode.insert key v n) = true ∧
      goodShapeCs (RadixNode.children (RadixNode.insert key v n)) = true ∧
      (keyvals (RadixNode.insert key v n)).Perm ((key, v) :: keyvals n) := by
  induction n using nodeInd with
  | h val cs ih =>
    intro key v hkey hfresh hnr hgs
    rw [nonRootPrefixesNonempty] at hnr
    simp only [RadixNode.children] at hgs
    have hfreshCs : ∀ e ∈ keyvalsCs cs, ¬ key <+: e.1 ∧ ¬ e.1 <+: key :=
      fun e he => hfresh e (mem_keyvals_of_mem_keyvalsCs he)
    obtain ⟨c1, c2, c3⟩ := insertCs_fresh_ok key v cs hkey
      (fun e he => ih e he) hfreshCs hnr hgs
    rw [show RadixNode.insert key v (RadixNode.mk val cs)
        = RadixNode.mk val (RadixNode.insertCs key v cs) from rfl]
    refine ⟨?_, ?_, ?_⟩
    · rw [nonRootPrefixesNonempty]
      exact c1
    · simpa [RadixNode.children] using c2
    · cases val with
      | none => simpa [keyvals] using c3
      | some w =>
        rw [keyvals, keyvals, List.singleton_append, List.singleton_append]
        exact (List.Perm.cons _ c3).trans (List.Perm.swap _ _ _)

/-- Folding fresh inserts of pairwise prefix-independent non-empty keys
builds a compressed, disciplined tree holding exactly those bindings. -/
theorem buildTree_fresh {V : Type} (ops : List (Str × V)) :
    ∀ (t : RadixNode V) (done : List (Str × V)),
      allNodesCompressed t = true → nonRootPrefixesNonempty t = true →
      goodShapeCs (RadixNode.children t) = true →
      (keyvals t).Perm done →
      (∀ k ∈ ops, k.1 ≠ ([] : Str)) →
      (∀ d ∈ done, ∀ k ∈ ops, ¬ d.1 <+: k.1 ∧ ¬ k.1 <+: d.1) →
      List.Pairwise (fun a b => ¬ a.1 <+: b.1 ∧ ¬ b.1 <+: a.1) ops →
      allNodesCompressed (ops.foldl (fun a q => RadixNode.insert q.1 q.2 a) t) = true ∧
      nonRootPrefixesNonempty (ops.foldl (fun a q => RadixNode.insert q.1 q.2 a) t) = true ∧
      goodShapeCs (RadixNode.children
        (ops.foldl (fun a q => RadixNode.insert q.1 q.2 a) t)) = true ∧
      (keyvals (ops.foldl (fun a q => RadixNode.insert q.1 q.2 a) t)).Perm (ops ++ done) := by
  induction ops with
  | nil =>
    intro t done hc hn hg hkv _ _ _
    exact ⟨hc, hn, hg, by simpa using hkv⟩
  | cons hd rest ih =>
    intro t done hc hn hg hkv hne hdone hpw
    obtain ⟨k, v⟩ := hd
    have hkne : k ≠ [] := hne (k, v) (List.mem_cons_self ..)
    have hfresh : ∀ b ∈ keyvals t, ¬ k <+: b.1 ∧ ¬ b.1 <+: k := by
      intro b hb
      have := hdone b (hkv.mem_iff.mp hb) (k, v) (List.mem_cons_self ..)
      exact ⟨this.2, this.1⟩
    obtain ⟨f1, f2, f3⟩ := insert_fresh_ok t k v hkne hfresh hn hg
    have hc2 : allNodesCompressed (RadixNode.insert k v t) = true :=
      insert_compressed t k v hkne hc
    rw [List.foldl_cons]
    have hkv2 : (keyvals (RadixNode.insert k v t)).Perm ((k, v) :: done) :=
      f3.trans (List.Perm.cons _ hkv)
    rw [List.pairwise_cons] at hpw
    have hdone2 : ∀ d ∈ (k, v) :: done, ∀ q ∈ rest, ¬ d.1 <+: q.1 ∧ ¬ q.1 <+: d.1 := by
      intro d hd q hq
      rcases List.mem_cons.mp hd with h1 | h1
      · subst h1
        exact hpw.1 q hq
      · exact hdone d h1 q (List.mem_cons_of_mem _ hq)
    have hrest := ih (RadixNode.insert k v t) ((k, v) :: done) hc2 f1 f2 hkv2
      (fun q hq => hne q (List.mem_cons_of_mem _ hq)) hdone2 hpw.2
    exact ⟨hrest.1, hrest.2.1, hrest.2.2.1, hrest.2.2.2.trans List.perm_middle⟩

/-- C2: inserting the same bindings in any two orders yields trees whose
as_dict exports are equal as Python dictionaries, provided all keys are
non-empty and no key is a prefix of another (in particular all keys are
distinct). -/
theorem C2_amended_order_independence {V : Type} (ops1 ops2 : List (Str × V))
    (hperm : ops1.Perm ops2)
    (hne : ∀ k ∈ ops1, k.1 ≠ ([] : Str))
    (hpw : List.Pairwise (fun a b => ¬ a.1 <+: b.1 ∧ ¬ b.1 <+: a.1) ops1) :
    pyEqS (RadixNode.asDict (buildTree ops1)) (RadixNode.asDict (buildTree ops2)) = true := by
  have hne2 : ∀ k ∈ ops2, k.1 ≠ ([] : Str) := fun k hk => hne k (hperm.mem_iff.mpr hk)
  have hsymm : Symmetric (fun (a b : Str × V) => ¬ a.1 <+: b.1 ∧ ¬ b.1 <+: a.1) :=
    fun a b h => ⟨h.2, h.1⟩
  have hpw2 : List.Pairwise (fun (a b : Str × V) => ¬ a.1 <+: b.1 ∧ ¬ b.1 <+: a.1) ops2 :=
    (hperm.pairwise_iff (fun {a b} h => hsymm h)).mp hpw
  have hb1 := buildTree_fresh ops1 (emptyTree V) [] rfl rfl rfl (List.Perm.refl _)
    hne (fun d hd => absurd hd (List.not_mem_nil d)) hpw
  have hb2 := buildTree_fresh ops2 (emptyTree V) [] rfl rfl rfl (List.Perm.refl _)
    hne2 (fun d hd => absurd hd (List.not_mem_nil d)) hpw2
  rw [List.append_nil] at hb1 hb2
  have hkv : (keyvals (buildTree ops1)).Perm (keyvals (buildTree ops2)) :=
    (hb1.2.2.2.trans hperm).trans hb2.2.2.2.symm
  have hcan := canonize_unique (buildTree ops1) (buildTree ops2) hb1.1 hb2.1
    hb1.2.1 hb2.2.1 hb1.2.2.1 hb2.2.2.1 hkv
  exact pyEqS_of_canonize_eq (buildTree ops1) (buildTree ops2) hb1.1 hb2.1
    hb1.2.1 hb2.2.1 hcan

/-- Witness for C2 at a concrete permuted pair of insertion orders. -/
theorem C2_amended_witness :
    pyEqS (RadixNode.asDict (buildTree [((['a', 'b'] : Str), (1 : Nat)), (['c', 'd'], 2)]))
      (RadixNode.asDict (buildTree [((['c', 'd'] : Str), (2 : Nat)), (['a', 'b'], 1)]))
      = true :=
  C2_amended_order_independence _ _ (List.Perm.swap _ _ _) (by decide) (by decide)

/-- The longest common prefix of a string with a prefix of it is that
prefix. -/
theorem lcp_prefix_eq {p : Str} (x : Str) : commonLongestPrefix (p ++ x) p = p := by
  induction p with
  | nil => exact lcp_nil_right x
  | cons a p ih =>
    rw [List.cons_append, commonLongestPrefix, if_pos rfl, ih]

/-- Extending a string keeps its longest common prefix with a
prefix-independent string empty. -/
theorem lcp_append_nil {p q q' : Str} (hp : p ≠ [])
    (h : commonLongestPrefix p q' = []) : commonLongestPrefix (p ++ q) q' = [] := by
  rw [lcp_eq_nil_iff] at h ⊢
  intro hs
  exact h ⟨hp, hs.2.1, ((List.head?_append_of_ne_nil p hp).symm).trans hs.2.2⟩

/-- One-step unfolding of the children-dict delete. -/
theorem deleteCs_cons {V : Type} (key p : Str) (ch : RadixNode V)
    (rest : List (Str × RadixNode V)) :
    deleteCs key ((p, ch) :: rest) =
      if commonLongestPrefix key p = [] then
        (deleteCs key rest).map (fun r => (r.1, r.2.1, (p, ch) :: r.2.2))
      else if p = key ∧ commonLongestPrefix key p = p then
        match RadixNode.value ch with
        | none => none
        | some v =>
          match RadixNode.children ch with
          | [] => some (v, true, rest)
          | [(q, g)] => some (v, false, (p ++ q, g) :: rest)
          | cs2 => some (v, false, (p, .mk none cs2) :: rest)
      else if commonLongestPrefix key p = p then
        (deleteNode (key.drop (commonLongestPrefix key p).length) ch).map (fun r =>
          match r.2 with
          | .keep n2 => (r.1, false, (p, n2) :: rest)
          | .merged q g => (r.1, false, (p ++ q, g) :: rest))
      else none := rfl

/-- An empty longest common prefix with a non-empty prefix of a string
gives an empty longest common prefix with the whole string. -/
theorem lcp_nil_of_prefix {p q0 q : Str} (h0 : q0 ≠ []) (hpre : q0 <+: q)
    (h : commonLongestPrefix p q0 = []) : commonLongestPrefix p q = [] := by
  rw [lcp_eq_nil_iff] at h ⊢
  intro hs
  obtain ⟨t, rfl⟩ := hpre
  exact h ⟨hs.1, h0, hs.2.2.trans (List.head?_append_of_ne_nil q0 h0)⟩

/-- Deleting a stored key from a compressed, disciplined children dict
succeeds, keeps the invariants, removes exactly that binding, shrinks the
dict by one entry exactly when the removed flag is set, and leaves only
keys extending original keys. -/
theorem deleteCs_ok {V : Type} (k : Str) (w : V) (cs : List (Str × RadixNode V))
    (hdel : ∀ e ∈ cs, ∀ (k2 : Str) (w2 : V), k2 ≠ [] →
        allNodesCompressed e.2 = true → nonRootPrefixesNonempty e.2 = true →
        goodShapeCs (RadixNode.children e.2) = true →
        (k2, w2) ∈ keyvalsCs (RadixNode.children e.2) →
        ∃ v fate, deleteNode k2 e.2 = some (v, fate) ∧ deleteFateOk k2 v e.2 fate)
    (hk : k ≠ [])
    (hpw : pairwiseLcpEmpty (cs.map Prod.fst) = true)
    (hcomp : allNodesCompressedCs cs = true)
    (hnr : nonRootPrefixesNonemptyCs cs = true)
    (hgs : goodShapeCs cs = true)
    (hmem : (k, w) ∈ keyvalsCs cs) :
    ∃ v removed cs2, deleteCs k cs = some (v, removed, cs2) ∧
      ((k, v) :: keyvalsCs cs2).Perm (keyvalsCs cs) ∧
      pairwiseLcpEmpty (cs2.map Prod.fst) = true ∧
      allNodesCompressedCs cs2 = true ∧
      nonRootPrefixesNonemptyCs cs2 = true ∧
      goodShapeCs cs2 = true ∧
      cs2.length + (if removed then 1 else 0) = cs.length ∧
      (∀ q ∈ cs2.map Prod.fst, ∃ q0 ∈ cs.map Prod.fst, q0 ≠ [] ∧ q0 <+: q) := by
  induction cs with
  | nil => simp [keyvalsCs] at hmem
  | cons hd rest ih =>
    obtain ⟨p, ch⟩ := hd
    rw [List.map_cons, pairwiseLcpEmpty_cons] at hpw
    obtain ⟨hpq, hpwrest⟩ := hpw
    rw [allNodesCompressedCs, Bool.and_eq_true_iff] at hcomp
    obtain ⟨hcompch, hcomprest⟩ := hcomp
    rw [nonRootPrefixesNonemptyCs, Bool.and_eq_true_iff, Bool.and_eq_true_iff] at hnr
    obtain ⟨⟨hpb, hnrch⟩, hnrrest⟩ := hnr
    have hp : p ≠ [] := by simpa [List.isEmpty_iff] using hpb
    rw [goodShapeCs, Bool.and_eq_true_iff] at hgs
    obtain ⟨hgsch, hgsrest⟩ := hgs
    have hdelrest : ∀ e ∈ rest, ∀ (k2 : Str) (w2 : V), k2 ≠ [] →
        allNodesCompressed e.2 = true → nonRootPrefixesNonempty e.2 = true →
        goodShapeCs (RadixNode.children e.2) = true →
        (k2, w2) ∈ keyvalsCs (RadixNode.children e.2) →
        ∃ v fate, deleteNode k2 e.2 = some (v, fate) ∧ deleteFateOk k2 v e.2 fate :=
      fun e he => hdel e (List.mem_cons_of_mem _ he)
    have hrestkeysne : ∀ q ∈ rest.map Prod.fst, q ≠ ([] : Str) := by
      intro q hq
      obtain ⟨e, he, hek⟩ := List.mem_map.mp hq
      rw [← hek]
      exact (nonRootPrefixesNonemptyCs_mem hnrrest he).1
    rw [keyvalsCs] at hmem
    rw [deleteCs_cons]
    by_cases hc : commonLongestPrefix k p = []
    · -- this child does not match: keep scanning
      rw [if_pos hc]
      have hmem2 : (k, w) ∈ keyvalsCs rest := by
        rcases List.mem_append.mp hmem with h1 | h1
        · exfalso
          have hhead : (k, w).1.head? = p.head? := head?_of_mem_contrib hp h1
          rw [lcp_eq_nil_iff] at hc
          exact hc ⟨hk, hp, hhead⟩
        · exact h1
      obtain ⟨v, removed, cs2, hdc, hperm, hpw2, hcomp2, hnr2, hgs2, hlen, hchar⟩ :=
        ih hdelrest hpwrest hcomprest hnrrest hgsrest hmem2
      refine ⟨v, removed, (p, ch) :: cs2, ?_, ?_, ?_, ?_, ?_, ?_, ?_, ?_⟩
      · rw [hdc]
        rfl
      · rw [keyvalsCs, keyvalsCs]
        exact List.Perm.trans List.perm_middle.symm (List.Perm.append_left _ hperm)
      · rw [List.map_cons, pairwiseLcpEmpty_cons]
        refine ⟨?_, hpw2⟩
        intro q hq
        obtain ⟨q0, hq0mem, hq0ne, hq0pre⟩ := hchar q hq
        exact lcp_nil_of_prefix hq0ne hq0pre (hpq q0 hq0mem)
      · rw [allNodesCompressedCs, Bool.and_eq_true_iff]
        exact ⟨hcompch, hcomp2⟩
      · rw [nonRootPrefixesNonemptyCs, Bool.and_eq_true_iff, Bool.and_eq_true_iff]
        exact ⟨⟨hpb, hnrch⟩, hnr2⟩
      · rw [goodShapeCs, Bool.and_eq_true_iff]
        exact ⟨hgsch, hgs2⟩
      · simp only [List.length_cons]
        omega
      · intro q hq
        rw [List.map_cons, List.mem_cons] at hq
        rcases hq with h1 | h1
        · exact ⟨p, by rw [List.map_cons]; exact List.mem_cons_self .., hp,
            h1 ▸ List.prefix_refl p⟩
        · obtain ⟨q0, hq0mem, hq0ne, hq0pre⟩ := hchar q h1
          exact ⟨q0, by rw [List.map_cons]; exact List.mem_cons_of_mem _ hq0mem,
            hq0ne, hq0pre⟩
    · rw [if_neg hc]
      -- the stored binding lives in this first matching child
      have hmem1 : (k, w) ∈ (keyvals ch).map (fun e => (p ++ e.1, e.2)) := by
        rcases List.mem_append.mp hmem with h1 | h1
        · exact h1
        · exfalso
          obtain ⟨pch, hpch, k2, hk1, _⟩ := mem_keyvalsCs h1
          have hpchne : pch.1 ≠ [] := (nonRootPrefixesNonemptyCs_mem hnrrest hpch).1
          have hsh : sharesHead k p := by
            by_contra hn
            exact hc ((lcp_eq_nil_iff k p).mpr hn)
          have hk1b : k = pch.1 ++ k2 := hk1
          have hkh : k.head? = pch.1.head? := by
            rw [hk1b]
            exact List.head?_append_of_ne_nil pch.1 hpchne
          have hlcp := hpq pch.1 (List.mem_map_of_mem Prod.fst hpch)
          rw [lcp_eq_nil_iff] at hlcp
          exact hlcp ⟨hp, hpchne, hsh.2.2.symm.trans hkh⟩
      obtain ⟨b, hb, hbe⟩ := List.mem_map.mp hmem1
      obtain ⟨b1, b2⟩ := b
      rw [Prod.mk.injEq] at hbe
      obtain ⟨hbk0, hbw0⟩ := hbe
      have hbk : p ++ b1 = k := hbk0
      have hbw : b2 = w := hbw0
      rw [hbw] at hb
      have hppre : p <+: k := ⟨b1, hbk⟩
      have hcpk : commonLongestPrefix k p = p := by
        rw [← hbk]
        exact lcp_prefix_eq b1
      by_cases hex : p = k
      · -- terminal: the child stores the key itself, in its value
        rw [if_pos ⟨hex, hcpk⟩]
        have hb1nil : b1 = [] := by
          have h6 : p ++ b1 = p ++ [] := by
            rw [List.append_nil, hbk]
            exact hex.symm
          exact List.append_cancel_left h6
        subst hb1nil
        obtain ⟨chv, chcs⟩ := ch
        have hnech : ∀ e ∈ chcs, e.1 ≠ ([] : Str) := by
          rw [nonRootPrefixesNonempty] at hnrch
          exact fun e he => (nonRootPrefixesNonemptyCs_mem hnrch he).1
        have hchv : chv = some w := (nil_key_mem_keyvals hnech w).mp hb
        subst hchv
        have hl : chcs = [] := (goodShape_some_iff w chcs).mp hgsch
        subst hl
        refine ⟨w, true, rest, rfl, ?_, hpwrest, hcomprest, hnrrest, hgsrest, by simp, ?_⟩
        · rw [show keyvalsCs ((p, RadixNode.mk (some w) []) :: rest)
              = (k, w) :: keyvalsCs rest from by simp [keyvalsCs, keyvals, hex]]
        · intro q hq
          obtain ⟨e, he, hek⟩ := List.mem_map.mp hq
          refine ⟨q, by rw [List.map_cons]; exact List.mem_cons_of_mem _ hq, ?_,
            List.prefix_refl q⟩
          rw [← hek]
          exact (nonRootPrefixesNonemptyCs_mem hnrrest he).1
      · -- the key extends the child's prefix: recurse into the child
        rw [if_neg (fun hcontra => hex hcontra.1), if_pos hcpk, hcpk]
        have hb1ne : b1 ≠ [] := by
          intro h
          subst h
          rw [List.append_nil] at hbk
          exact hex hbk
        have hkdrop : k.drop p.length = b1 := by
          rw [← hbk]
          exact List.drop_left p b1
        rw [hkdrop]
        obtain ⟨chv, chcs⟩ := ch
        cases chv with
        | some w2 =>
          exfalso
          have hl : chcs = [] := (goodShape_some_iff w2 chcs).mp hgsch
          subst hl
          rw [keyvals] at hb
          simp [keyvalsCs] at hb
          exact hb1ne hb.1
        | none =>
          have hsh := (goodShape_none_iff chcs).mp hgsch
          have hbmem : (b1, w) ∈ keyvalsCs chcs := by
            rw [keyvals] at hb
            simpa using hb
          obtain ⟨v, fate, hdn, hfc⟩ := hdel (p, RadixNode.mk none chcs)
            (List.mem_cons_self ..) b1 w hb1ne hcompch hnrch
            (by simpa [RadixNode.children] using hsh.2)
            (by simpa [RadixNode.children] using hbmem)
          cases fate with
          | keep n2 =>
            rw [deleteFateOk] at hfc
            obtain ⟨hval2, hcomp2, hnr2, hgs2, hperm2, hgood2⟩ := hfc
            have hgsn2 : goodShape n2 = true :=
              hgood2 rfl (by simpa [RadixNode.children] using hsh.1)
            refine ⟨v, false, (p, n2) :: rest, by rw [hdn]; rfl, ?_, ?_, ?_, ?_, ?_,
              by simp, ?_⟩
            · rw [keyvalsCs, keyvalsCs]
              have h5 := List.Perm.append_right (keyvalsCs rest)
                (hperm2.map (fun e => ((p ++ e.1, e.2) : Str × V)))
              simp only [List.map_cons] at h5
              rw [hbk] at h5
              exact h5
            · rw [List.map_cons, pairwiseLcpEmpty_cons]
              exact ⟨hpq, hpwrest⟩
            · rw [allNodesCompressedCs, Bool.and_eq_true_iff]
              exact ⟨hcomp2, hcomprest⟩
            · rw [nonRootPrefixesNonemptyCs, Bool.and_eq_true_iff, Bool.and_eq_true_iff]
              exact ⟨⟨hpb, hnr2⟩, hnrrest⟩
            · rw [goodShapeCs, Bool.and_eq_true_iff]
              exact ⟨hgsn2, hgsrest⟩
            · intro q hq
              rw [List.map_cons, List.mem_cons] at hq
              rcases hq with h1 | h1
              · exact ⟨p, by rw [List.map_cons]; exact List.mem_cons_self .., hp,
                  h1 ▸ List.prefix_refl p⟩
              · refine ⟨q, by rw [List.map_cons]; exact List.mem_cons_of_mem _ h1,
                  hrestkeysne q h1, List.prefix_refl q⟩
          | merged q g =>
            rw [deleteFateOk] at hfc
            obtain ⟨hqne, hcompg, hnrg, hgsg, hpermg⟩ := hfc
            refine ⟨v, false, (p ++ q, g) :: rest, by rw [hdn]; rfl, ?_, ?_, ?_, ?_, ?_,
              by simp, ?_⟩
            · rw [keyvalsCs, keyvalsCs]
              have h5 := List.Perm.append_right (keyvalsCs rest)
                (hpermg.map (fun e => ((p ++ e.1, e.2) : Str × V)))
              simp only [List.map_cons, List.map_map] at h5
              rw [hbk] at h5
              have hfeq : ((keyvals g).map
                    ((fun (e : Str × V) => (p ++ e.1, e.2)) ∘
                     (fun (e : Str × V) => (q ++ e.1, e.2))))
                  = (keyvals g).map (fun (e : Str × V) => (p ++ q ++ e.1, e.2)) := by
                apply List.map_congr_left
                intro e _
                show ((p ++ (q ++ e.1), e.2) : Str × V) = (p ++ q ++ e.1, e.2)
                rw [List.append_assoc]
              rw [hfeq] at h5
              exact h5
            · rw [List.map_cons, pairwiseLcpEmpty_cons]
              refine ⟨?_, hpwrest⟩
              intro q2 hq2
              exact lcp_append_nil hp (hpq q2 hq2)
            · rw [allNodesCompressedCs, Bool.and_eq_true_iff]
              exact ⟨hcompg, hcomprest⟩
            · rw [nonRootPrefixesNonemptyCs, Bool.and_eq_true_iff, Bool.and_eq_true_iff]
              refine ⟨⟨?_, hnrg⟩, hnrrest⟩
              simp [List.isEmpty_iff, hp]
            · rw [goodShapeCs, Bool.and_eq_true_iff]
              exact ⟨hgsg, hgsrest⟩
            · intro q2 hq2
              rw [List.map_cons, List.mem_cons] at hq2
              rcases hq2 with h1 | h1
              · exact ⟨p, by rw [List.map_cons]; exact List.mem_cons_self .., hp,
                  h1 ▸ List.prefix_append p q⟩
              · exact ⟨q2, by rw [List.map_cons]; exact List.mem_cons_of_mem _ h1,
                  hrestkeysne q2 h1, List.prefix_refl q2⟩

/-- Deleting a key stored below a compressed, disciplined node succeeds
and fulfils the delete contract for the resulting fate. -/
theorem deleteNode_ok {V : Type} (n : RadixNode V) :
    ∀ (k : Str) (w : V), k ≠ [] →
      allNodesCompressed n = true → nonRootPrefixesNonempty n = true →
      goodShapeCs (RadixNode.children n) = true →
      (k, w) ∈ keyvalsCs (RadixNode.children n) →
      ∃ v fate, deleteNode k n = some (v, fate) ∧ deleteFateOk k v n fate := by
  induction n using nodeInd with
  | h val cs ih =>
    intro k w hk hcomp hnr hgs hmem
    rw [allNodesCompressed_mk, Bool.and_eq_true_iff] at hcomp
    rw [nonRootPrefixesNonempty] at hnr
    simp only [RadixNode.children] at hgs hmem
    obtain ⟨v, removed, cs2, hdc, hperm, hpw2, hcomp2, hnr2, hgs2, hlen, _⟩ :=
      deleteCs_ok k w cs (fun e he => ih e he) hk hcomp.1 hcomp.2 hnr hgs hmem
    have hkeepFate : ∀ hval : Option V, hval = val →
        ((k, v) :: keyvals (RadixNode.mk val cs2)).Perm (keyvals (RadixNode.mk val cs)) := by
      intro _ _
      cases val with
      | none =>
        simpa [keyvals] using hperm
      | some w2 =>
        rw [keyvals, keyvals, List.singleton_append, List.singleton_append]
        exact (List.Perm.swap _ _ _).trans (List.Perm.cons _ hperm)
    have hkeepOk : goodShapeCs cs2 = true →
        deleteFateOk k v (RadixNode.mk val cs) (NodeFate.keep (RadixNode.mk val cs2)) →
        True := fun _ _ => trivial
    cases removed with
    | false =>
      refine ⟨v, NodeFate.keep (RadixNode.mk val cs2), by simp [deleteNode, hdc], ?_⟩
      rw [deleteFateOk]
      refine ⟨rfl, ?_, ?_, ?_, hkeepFate val rfl, ?_⟩
      · rw [allNodesCompressed_mk]
        simp [hpw2, hcomp2]
      · rw [nonRootPrefixesNonempty]
        exact hnr2
      · simpa [RadixNode.children] using hgs2
      · intro hvn hl2
        have hvn2 : val = none := hvn
        subst hvn2
        rw [goodShape_none_iff]
        simp only [RadixNode.children] at hl2
        simp at hlen
        exact ⟨by omega, hgs2⟩
    | true =>
      cases val with
      | some w2 =>
        refine ⟨v, NodeFate.keep (RadixNode.mk (some w2) cs2), by simp [deleteNode, hdc], ?_⟩
        rw [deleteFateOk]
        refine ⟨rfl, ?_, ?_, ?_, hkeepFate (some w2) rfl, ?_⟩
        · rw [allNodesCompressed_mk]
          simp [hpw2, hcomp2]
        · rw [nonRootPrefixesNonempty]
          exact hnr2
        · simpa [RadixNode.children] using hgs2
        · intro hvn _
          exact absurd hvn (by simp [RadixNode.value])
      | none =>
        match cs2, hperm, hpw2, hcomp2, hnr2, hgs2, hlen with
        | [], hperm, hpw2, hcomp2, hnr2, hgs2, hlen =>
          refine ⟨v, NodeFate.keep (RadixNode.mk none []), by simp [deleteNode, hdc], ?_⟩
          rw [deleteFateOk]
          refine ⟨rfl, ?_, ?_, ?_, hkeepFate none rfl, ?_⟩
          · rw [allNodesCompressed_mk, hpw2, hcomp2]
            rfl
          · rw [nonRootPrefixesNonempty]
            exact hnr2
          · simpa [RadixNode.children] using hgs2
          · intro _ hl2
            simp only [RadixNode.children] at hl2
            simp at hlen
            omega
        | [(q, g)], hperm, hpw2, hcomp2, hnr2, hgs2, hlen =>
          refine ⟨v, NodeFate.merged q g, by simp [deleteNode, hdc], ?_⟩
          rw [deleteFateOk]
          rw [nonRootPrefixesNonemptyCs, Bool.and_eq_true_iff, Bool.and_eq_true_iff] at hnr2
          rw [goodShapeCs, Bool.and_eq_true_iff] at hgs2
          rw [allNodesCompressedCs, Bool.and_eq_true_iff] at hcomp2
          refine ⟨by simpa [List.isEmpty_iff] using hnr2.1.1, hcomp2.1, hnr2.1.2,
            hgs2.1, ?_⟩
          have := hperm
          simp only [keyvalsCs, List.append_nil] at this
          simpa [keyvals] using this
        | e1 :: e2 :: cs2', hperm, hpw2, hcomp2, hnr2, hgs2, hlen =>
          refine ⟨v, NodeFate.keep (RadixNode.mk none (e1 :: e2 :: cs2')),
            by simp [deleteNode, hdc], ?_⟩
          rw [deleteFateOk]
          refine ⟨rfl, ?_, ?_, ?_, hkeepFate none rfl, ?_⟩
          · rw [allNodesCompressed_mk, hpw2, hcomp2]
            rfl
          · rw [nonRootPrefixesNonempty]
            exact hnr2
          · simpa [RadixNode.children] using hgs2
          · intro _ _
            rw [goodShape_none_iff]
            exact ⟨by simp only [List.length_cons]; omega, hgs2⟩

/-- Popping a stored key from a compressed, disciplined valueless-root
tree succeeds and removes exactly that binding, preserving the
invariants. -/
theorem treePop_ok {V : Type} {t : RadixNode V} {k : Str} {w : V}
    (hk : k ≠ [])
    (hcomp : allNodesCompressed t = true) (hnr : nonRootPrefixesNonempty t = true)
    (hgs : goodShapeCs (RadixNode.children t) = true)
    (hval : RadixNode.value t = none)
    (hmem : (k, w) ∈ keyvals t) :
    ∃ v t2, treePop k t = some (v, t2) ∧
      allNodesCompressed t2 = true ∧ nonRootPrefixesNonempty t2 = true ∧
      goodShapeCs (RadixNode.children t2) = true ∧ RadixNode.value t2 = none ∧
      ((k, v) :: keyvals t2).Perm (keyvals t) := by
  obtain ⟨val, cs⟩ := t
  have hv : val = none := hval
  subst hv
  have hmem2 : (k, w) ∈ keyvalsCs cs := by simpa [keyvals] using hmem
  obtain ⟨v, fate, hdn, hfc⟩ := deleteNode_ok (RadixNode.mk none cs) k w hk hcomp hnr
    (by simpa [RadixNode.children] using hgs)
    (by simpa [RadixNode.children] using hmem2)
  cases fate with
  | keep n2 =>
    rw [deleteFateOk] at hfc
    obtain ⟨hv2, hc2, hn2, hg2, hp2, _⟩ := hfc
    exact ⟨v, n2, by simp [treePop, hdn, hk], hc2, hn2, hg2, by rw [hv2]; rfl, hp2⟩
  | merged q g =>
    rw [deleteFateOk] at hfc
    obtain ⟨hqne, hcg, hng, hgg, hpg⟩ := hfc
    refine ⟨v, RadixNode.mk none [(q, g)], by simp [treePop, hdn, hk], ?_, ?_, ?_, rfl, ?_⟩
    · rw [allNodesCompressed_mk]
      simp [pairwiseLcpEmpty, allNodesCompressedCs, hcg]
    · rw [nonRootPrefixesNonempty]
      simp [nonRootPrefixesNonemptyCs, List.isEmpty_iff, hqne, hng]
    · simp [RadixNode.children, goodShapeCs, hgg]
    · simpa [keyvals, keyvalsCs] using hpg

/-- Folding inserts never changes the root's value. -/
theorem foldl_insert_value {V : Type} (ops : List (Str × V)) :
    ∀ t : RadixNode V,
      RadixNode.value (ops.foldl (fun a q => RadixNode.insert q.1 q.2 a) t)
        = RadixNode.value t := by
  induction ops with
  | nil => intro t; rfl
  | cons hd rest ih =>
    intro t
    rw [List.foldl_cons, ih]
    obtain ⟨val, cs⟩ := t
    rfl

/-- The root of a built tree stores no value. -/
theorem buildTree_value_none {V : Type} (ops : List (Str × V)) :
    RadixNode.value (buildTree ops) = none :=
  foldl_insert_value ops (emptyTree V)

/-- C6: popping a stored key and re-inserting it with the same value
restores the as_dict export up to Python ==, when the tree is built from
non-empty pairwise prefix-independent keys; and the pop returns the value
stored under that key. -/
theorem C6_amended_pop_insert_inverse {V : Type} (ops : List (Str × V)) (k : Str) (w : V)
    (hne : ∀ q ∈ ops, q.1 ≠ ([] : Str))
    (hpw : List.Pairwise (fun a b => ¬ a.1 <+: b.1 ∧ ¬ b.1 <+: a.1) ops)
    (hmem : (k, w) ∈ ops) :
    ∃ t2, treePop k (buildTree ops) = some (w, t2) ∧
      pyEqS (RadixNode.asDict (RadixNode.insert k w t2))
        (RadixNode.asDict (buildTree ops)) = true := by
  have hk : k ≠ [] := hne (k, w) hmem
  have hb := buildTree_fresh ops (emptyTree V) [] rfl rfl rfl (List.Perm.refl _)
    hne (fun d hd => absurd hd (List.not_mem_nil d)) hpw
  rw [List.append_nil] at hb
  obtain ⟨hbc, hbn, hbg, hbkv⟩ := hb
  have hbval : RadixNode.value (buildTree ops) = none := buildTree_value_none ops
  have hmemkv : (k, w) ∈ keyvals (buildTree ops) := hbkv.mem_iff.mpr hmem
  obtain ⟨v, t2, hpop, hc2, hn2, hg2, hv2, hp2⟩ := treePop_ok hk hbc hbn hbg hbval hmemkv
  have hndops : (ops.map Prod.fst).Nodup :=
    List.pairwise_map.mpr
      (hpw.imp (fun h heq => h.1 (by rw [heq])))
  have hndb : ((keyvals (buildTree ops)).map Prod.fst).Nodup :=
    ((hbkv.map Prod.fst).nodup_iff).mpr hndops
  have hndcons : (((k, v) :: keyvals t2).map Prod.fst).Nodup :=
    ((hp2.map Prod.fst).nodup_iff).mpr hndb
  rw [List.map_cons, List.nodup_cons] at hndcons
  have hknot : k ∉ (keyvals t2).map Prod.fst := hndcons.1
  have hvw : v = w := by
    have h7 : (k, w) ∈ (k, v) :: keyvals t2 := hp2.mem_iff.mpr hmemkv
    rcases List.mem_cons.mp h7 with h8 | h8
    · rw [Prod.mk.injEq] at h8
      exact h8.2.symm
    · have h9 : k ∈ (keyvals t2).map Prod.fst := List.mem_map_of_mem Prod.fst h8
      exact absurd h9 hknot
  rw [← hvw]
  have hsymm : Symmetric (fun (a b : Str × V) => ¬ a.1 <+: b.1 ∧ ¬ b.1 <+: a.1) :=
    fun a b h => ⟨h.2, h.1⟩
  have hfresh : ∀ b ∈ keyvals t2, ¬ k <+: b.1 ∧ ¬ b.1 <+: k := by
    intro b hb2
    have hbops : b ∈ ops := hbkv.mem_iff.mp (hp2.mem_iff.mp (List.mem_cons_of_mem _ hb2))
    have hbk : b.1 ≠ k := by
      intro h
      exact hknot (h ▸ List.mem_map_of_mem Prod.fst hb2)
    have h9 := hpw.forall hsymm hbops hmem (fun h => hbk (by rw [h]))
    exact ⟨h9.2, h9.1⟩
  obtain ⟨f1, f2, f3⟩ := insert_fresh_ok t2 k v hk hfresh hn2 hg2
  have hcins : allNodesCompressed (RadixNode.insert k v t2) = true :=
    insert_compressed t2 k v hk hc2
  have hkvins : (keyvals (RadixNode.insert k v t2)).Perm (keyvals (buildTree ops)) :=
    f3.trans hp2
  have hcan := canonize_unique (RadixNode.insert k v t2) (buildTree ops) hcins hbc
    f1 hbn f2 hbg hkvins
  exact ⟨t2, hpop, pyEqS_of_canonize_eq _ _ hcins hbc f1 hbn hcan⟩

/-- Witness for C6 at a concrete tree and key. -/
theorem C6_amended_witness :
    ∃ t2, treePop ['a'] (buildTree [((['a'] : Str), (1 : Nat)), (['b', 'c'], 2)])
        = some (1, t2) ∧
      pyEqS (RadixNode.asDict (RadixNode.insert ['a'] 1 t2))
        (RadixNode.asDict (buildTree [((['a'] : Str), (1 : Nat)), (['b', 'c'], 2)]))
        = true :=
  C6_amended_pop_insert_inverse _ _ _ (by decide) (by decide) (by decide)

end Patrix
